import Mathlib

/-!
Verification of the wireguard-vanity-key search engine (Go implementation,
`main.go`) against its natural-language specification.

The development shallowly embeds the program:

* Field elements of GF(2^255-19) are `ZMod pcurve`.  The external field
  library (`filippo.io/edwards25519/field`) computes the modular inverse by
  Fermat exponentiation `x^(p-2)`; we embed that as `feInvert` via a
  fuel-bounded square-and-multiply so the kernel can evaluate it.  Where a
  claim is purely about the field algebra of in-repo code we state it over an
  arbitrary commutative ring / field with the inversion function as an
  explicit parameter (the spec treats the field library as a correct black
  box).
* Scalars (`edwards25519.Scalar`) are `ZMod lconst`, `lconst` being the group
  order `l = 2^252 + 27742317777372353535851937790883648493`; all scalar
  operations of the library reduce modulo `l`.
* Byte strings are `List ℕ` with entries below 256, little-endian for key
  material (as in the Go code) and big-endian where `math/big.Int.Bytes` is
  used.
* The Edwards point type of the external curve library is abstracted, for the
  claims about the search loop, to a type `Pt` with an addition `padd`, a
  neutral element `pzero`, the increment point `qpt` (Q = 8·B) and an
  encoding function `bm` (`Point.BytesMontgomery`); the group laws assumed of
  the library appear as explicit hypotheses.  The in-repo hot-path formulas
  (`projP1xP1`, `batchProjectionBytesMontgomery`, `vectorDivision`) are
  embedded concretely over the field.
-/

namespace WVK

set_option maxRecDepth 80000

/-! ## Bytes and numbers -/

/-- Value of a little-endian byte list (as used for key material in the Go
code: `field.Element.Bytes`, `Scalar.Bytes`, RFC 7748 encodings). -/
def fromBytesLE (l : List ℕ) : ℕ :=
  l.foldr (fun b acc => b + 256 * acc) 0

/-- Little-endian byte list of fixed width `w` for a value `v`. -/
def toBytesLE : ℕ → ℕ → List ℕ
  | 0, _ => []
  | w + 1, v => v % 256 :: toBytesLE w (v / 256)

/-- Fixed-width big-endian digit string of `v` in base `base` (most
significant digit first).  Instantiated at base 256 for byte strings and at
base 64 for base64 digit strings. -/
def digitsBE (base : ℕ) : ℕ → ℕ → List ℕ
  | 0, _ => []
  | w + 1, v => v / base ^ w % base :: digitsBE base w v

/-- Value of a big-endian digit string in base `base`. -/
def valDigits (base : ℕ) (l : List ℕ) : ℕ :=
  l.foldl (fun acc d => acc * base + d) 0

/-- Value of a big-endian byte list (as produced by `math/big.Int.Bytes`). -/
def valBE (l : List ℕ) : ℕ := valDigits 256 l

/-- Big-endian byte list of fixed width `w` for a value `v` (most significant
byte first); models `math/big.Int.Bytes` left-padded with zeros to width `w`,
as the `copy` into `buf` does in `decodeBase64PrefixBits`. -/
def toBytesBE (w v : ℕ) : List ℕ := digitsBE 256 w v

/-! ## The field GF(2^255 - 19) -/

/-- The prime 2^255 - 19 of Curve25519's base field. -/
def pcurve : ℕ := 2 ^ 255 - 19

/-- Fuel-bounded square-and-multiply exponentiation in the field; the fuel
makes the recursion structural so the kernel can evaluate it. -/
def fastPowAux (x : ZMod pcurve) : ℕ → ℕ → ZMod pcurve
  | 0, _ => 1
  | _ + 1, 0 => 1
  | fuel + 1, e + 1 =>
    let h := fastPowAux (x * x) fuel ((e + 1) / 2)
    if (e + 1) % 2 = 1 then h * x else h

/-- `x ^ e` in GF(2^255-19), computably. -/
def fastPow (x : ZMod pcurve) (e : ℕ) : ZMod pcurve := fastPowAux x 256 e

/-- The field library's `Element.Invert`: Fermat inversion `x^(p-2)`
(`Invert(0) = 0`, faithfully to the library). -/
def feInvert (x : ZMod pcurve) : ZMod pcurve := fastPow x (pcurve - 2)

/-- `field.Element.SetBytes`: little-endian bytes, the top bit of the last
byte is masked off; the represented residue class is taken modulo p. -/
def feFromBytes (b : List ℕ) : ZMod pcurve :=
  ((fromBytesLE b % 2 ^ 255 : ℕ) : ZMod pcurve)

/-- `field.Element.Bytes`: canonical 32-byte little-endian encoding. -/
def feBytes (x : ZMod pcurve) : List ℕ := toBytesLE 32 x.val

/-- The constant `d` of the edwards25519 curve equation, as decoded in
`main.go` from its decimal string. -/
def dconst : ZMod pcurve :=
  (37095705934669439343138083508754565189542113879843219016388785533085940283555 :
    ZMod pcurve)

/-- The standard square root of -1 in GF(2^255-19) (`sqrtM1` of the field
library, used by `SqrtRatio`). -/
def sqrtM1 : ZMod pcurve :=
  (19681161376707505956807079304988542015446066515923890162744021073123829784752 :
    ZMod pcurve)

/-! ## vectorDivision (`main.go` lines 492-511)

The function is embedded over an arbitrary commutative ring with the
inversion function `inv` as an explicit parameter (the Go code calls the
external `field.Element.Invert`).  Each pass also returns the number of field
multiplications it performed, so that the operation-count part of the spec is
a theorem about the same definition that computes the values. -/

section VectorDivision

variable {K : Type} [CommRing K]

/-- Forward pass of `vectorDivision`: from `r[0] = y[0]` and the tails
`x[1..]`, `y[1..]`, compute the list of pairs `(y[i], s[i])` with
`s[i] = r[i-1]*x[i]`, the final running product `r[n-1]`, and the number of
multiplications used (`r[i].Multiply` and `s[i].Multiply`, two per step). -/
def vdForward (r : K) : List K → List K → List (K × K) × K × ℕ
  | [], _ => ([], r, 0)
  | _ :: _, [] => ([], r, 0)
  | x :: xs, y :: ys =>
    let ri := r * y
    let si := r * x
    let rec' := vdForward ri xs ys
    ((y, si) :: rec'.1, rec'.2.1, rec'.2.2 + 2)

/-- Backward pass of `vectorDivision`: the pairs `(y[i], s[i])` are processed
from `i = n-1` down to `1` (the list argument is already reversed); each step
computes `u[i] = t*s[i]` and updates `t = t*y[i]` (two multiplications). -/
def vdBackward (t : K) : List (K × K) → List K × K × ℕ
  | [] => ([], t, 0)
  | (y, s) :: rest =>
    let u := t * s
    let rec' := vdBackward (t * y) rest
    (u :: rec'.1, rec'.2.1, rec'.2.2 + 2)

/-- `vectorDivision` (`main.go` 492-511): `u = x / y` elementwise with one
inversion.  Returns `(u, number of multiplications, number of inversions)`.
The Go function indexes `r[0] = y[0]` and so requires nonempty input (its
callers pass `batchSize ≥ 1`); on empty input we return `([], 0, 0)`. -/
def vectorDivision (inv : K → K) : List K → List K → List K × ℕ × ℕ
  | [], _ => ([], 0, 0)
  | _ :: _, [] => ([], 0, 0)
  | x0 :: xs, y0 :: ys =>
    let fwd := vdForward y0 xs ys
    let bigI := inv fwd.2.1
    let bwd := vdBackward bigI fwd.1.reverse
    ((bwd.2.1 * x0) :: bwd.1.reverse, (fwd.2.2 + bwd.2.2) + 1, 1)

end VectorDivision

/-! ## Batched Montgomery-u computation (`main.go` 429-478, 513-577) -/

/-- Extended coordinates of an `edwards25519.Point` (X : Y : Z : T), as
returned by `Point.ExtendedCoordinates`. -/
structure P3 (K : Type) where
  X : K
  Y : K
  Z : K
  T : K

/-- The `projP1xP1` struct of `main.go`. -/
structure ProjP1xP1 (K : Type) where
  X : K
  Y : K
  Z : K
  T : K

/-- The `projCached` struct of `main.go`. -/
structure ProjCached (K : Type) where
  YplusX : K
  YminusX : K
  Z : K
  T : K
  T2d : K

section BatchMontgomery

variable {K : Type} [CommRing K]

/-- `projCached.zero` (`main.go` 528-535). -/
def cachedZero : ProjCached K :=
  { YplusX := 1, YminusX := 1, Z := 1, T := 0, T2d := 0 }

/-- `projCached.fromP3` (`main.go` 537-546); `d2` is `d + d`. -/
def cachedFromP3 (d2 : K) (p : P3 K) : ProjCached K :=
  { YplusX := p.Y + p.X, YminusX := p.Y - p.X, Z := p.Z, T := p.T,
    T2d := p.T * d2 }

/-- `projP1xP1.add` (`main.go` 562-577): mixed extended-coordinates addition
of a cached point `p` and a cached point `q`. -/
def p1xp1Add (p q : ProjCached K) : ProjP1xP1 K :=
  let pp := p.YplusX * q.YplusX
  let mm := p.YminusX * q.YminusX
  let tt2d := p.T * q.T2d
  let zz2 := p.Z * q.Z + p.Z * q.Z
  { X := pp - mm, Y := pp + mm, Z := zz2 + tt2d, T := zz2 - tt2d }

/-- `projCached.fromP1xP1` (`main.go` 548-560), restricted to the completed
extended coordinates it computes first. -/
def p3FromP1xP1 (p : ProjP1xP1 K) : P3 K :=
  { X := p.X * p.T, Y := p.Y * p.Z, Z := p.Z * p.T, T := p.X * p.Y }

/-- `projCached.fromP1xP1` (`main.go` 548-560) in full: complete the
incomplete `projP1xP1` sum to extended coordinates and cache it. -/
def cachedFromP1xP1 (d2 : K) (p : ProjP1xP1 K) : ProjCached K :=
  cachedFromP3 d2 (p3FromP1xP1 p)

/-- The external library's `edwards25519.Point.BytesMontgomery` (RFC 7748
section 4.1): `u = (1 + y) / (1 - y)` with `y = Y / Z`, computed — as in the
library — with the field's Fermat `Invert`, so that `y = 1` yields `u = 0`.
Modeled from the library; we compare field-element values, the 32-byte
encoding `feBytes` being injective on canonical values. -/
def bytesMontgomery (inv : K → K) (p : P3 K) : K :=
  let y := p.Y * inv p.Z
  (1 + y) * inv (1 - y)

/-- `batchBytesMontgomery` (`main.go` 442-457): `u[i] = (Z+Y)/(Z-Y)` for each
point, with a single shared inversion via `vectorDivision`. -/
def batchBytesMontgomery (inv : K → K) (pts : List (P3 K)) : List K :=
  let x := pts.map fun v => v.Z + v.Y
  let y := pts.map fun v => v.Z - v.Y
  (vectorDivision inv x y).1

/-- `batchProjectionBytesMontgomery` (`main.go` 459-478):
`u[i] = (T+Y)/(T-Y)` on the incomplete `projP1xP1` sums. -/
def batchProjectionBytesMontgomery (inv : K → K) (ps : List (ProjP1xP1 K)) :
    List K :=
  let x := ps.map fun p => p.T + p.Y
  let y := ps.map fun p => p.T - p.Y
  (vectorDivision inv x y).1

end BatchMontgomery

/-- A valid extended-coordinates representative of an affine point of the
edwards25519 curve: `Z ≠ 0`, `T = XY/Z`, and the affine point `(X/Z, Y/Z)`
satisfies `-x² + y² = 1 + d x² y²` (cleared of denominators). -/
def onCurve (p : P3 (ZMod pcurve)) : Prop :=
  p.Z ≠ 0 ∧ p.X * p.Y = p.Z * p.T ∧
    (-(p.X ^ 2) + p.Y ^ 2) * p.Z ^ 2 = p.Z ^ 4 + dconst * p.X ^ 2 * p.Y ^ 2

/-- `d2 = d + d` (`main.go` 525) over the concrete field. -/
def d2const : ZMod pcurve := dconst + dconst

/-- The external library's `Point.Add`: the cached mixed addition followed by
completion — exactly the `projCached`/`projP1xP1` formulas of `main.go`
(lines 513-577), which are the library's own. -/
def p3Add (a b : P3 (ZMod pcurve)) : P3 (ZMod pcurve) :=
  p3FromP1xP1 (p1xp1Add (cachedFromP3 d2const a) (cachedFromP3 d2const b))

/-- The library's `Point.Negate`: `(-X : Y : Z : -T)`. -/
def p3Neg (a : P3 (ZMod pcurve)) : P3 (ZMod pcurve) :=
  ⟨-a.X, a.Y, a.Z, -a.T⟩

/-- The library's `NewIdentityPoint`: the neutral element `(0 : 1 : 1 : 0)`. -/
def p3Zero : P3 (ZMod pcurve) := ⟨0, 1, 1, 0⟩

/-- `n`-fold sum computed with the library addition: the semantics of the
library's `ScalarMult`/`ScalarBaseMult` for small `n` (a representative of
the point `n·P`; everything derived from it below is
representative-independent). -/
def p3smulP : ℕ → P3 (ZMod pcurve) → P3 (ZMod pcurve)
  | 0, _ => p3Zero
  | n + 1, a => p3Add (p3smulP n a) a

/-- The Ed25519 basepoint `B` (the library's `NewGeneratorPoint`), affine
representative: `y = 4/5` and the even `x` of RFC 8032 section 5.1. -/
def basePointP3 : P3 (ZMod pcurve) :=
  ⟨15112221349535400772501151409588531511454012693041857206046113283949847762202,
   46316835694926478169428394003475163141307993866256225615783033603165251855960,
   1,
   15112221349535400772501151409588531511454012693041857206046113283949847762202 *
     46316835694926478169428394003475163141307993866256225615783033603165251855960⟩

/-- `pointOffset = ScalarBaseMult(scalarOffset)` with `scalarOffset = 8`
(`main.go` 28-34): the increment point `Q = 8·B`. -/
def pointOffsetP3 : P3 (ZMod pcurve) := p3smulP 8 basePointP3

/-! ## Scalars modulo the group order -/

/-- The order `l` of the prime-order subgroup:
`2^252 + 27742317777372353535851937790883648493` (`main.go` line 29). -/
def lconst : ℕ := 2 ^ 252 + 27742317777372353535851937790883648493

/-- `smallScalar` of `main.go`: the low part of `l`, so that
`l = 2^252 + deltaSmall`. -/
def deltaSmall : ℕ := 27742317777372353535851937790883648493

/-- The alias-index table `k := [8]byte{0, 3, 6, 1, 4, 7, 2, 5}[lowBits]` of
`scalarToKeyBytes` (`main.go` line 327). -/
def aliasTable : List ℕ := [0, 3, 6, 1, 4, 7, 2, 5]

/-- `scalarToKeyBytes` (`main.go` 302-336).  `s.Bytes()` is the canonical
little-endian encoding of the reduced scalar; the Go function panics when the
selected alias index `k` is below 4, which we model as `none`.  The byte-31
bump `aliasBytes[31] += k << 4` wraps modulo 256 exactly as Go byte
arithmetic does. -/
def scalarToKeyBytes (s : ZMod lconst) : Option (List ℕ) :=
  let bytes := toBytesLE 32 s.val
  let lowBits := bytes.getD 0 0 &&& 7
  let k := aliasTable.getD lowBits 0
  if k < 4 then none
  else
    let aliasV := ((deltaSmall : ZMod lconst) * (k : ZMod lconst) + s)
    let ab := toBytesLE 32 aliasV.val
    some (ab.set 31 ((ab.getD 31 0 + (k <<< 4)) % 256))

/-- RFC 7748 clamping of a 32-byte private key, as performed by
`edwards25519.Scalar.SetBytesWithClamping`: clear the low three bits of byte
0, clear the top bit and set bit 254 of byte 31. -/
def clampBytes (b : List ℕ) : List ℕ :=
  (b.set 0 (b.getD 0 0 &&& 248)).set 31 ((b.getD 31 0 &&& 63) ||| 64)

/-- `Scalar.SetBytesWithClamping` (external library, called by `newPairFrom`):
clamp, then interpret little-endian and reduce modulo `l`. -/
def setBytesWithClamping (b : List ℕ) : ZMod lconst :=
  ((fromBytesLE (clampBytes b) : ℕ) : ZMod lconst)

/-! ## The `add` command (`main.go` 111-172) -/

/-- Outcome of a `cmdAdd` run (with a nonempty prefix): a panic inside
`scalarToKeyBytes` (which `cmdAdd` runs on *both* candidates before any
prefix check, `main.go` 148-149), the `panic("prefix mismatch")`, or the
printed private-key bytes together with the candidate scalar they encode. -/
inductive AddResult
  | panicked : AddResult
  | mismatch : AddResult
  | printed : List ℕ → ZMod lconst → AddResult
  deriving DecidableEq

/-- `cmdAdd` (`main.go` 111-172) after the base64 framing, with a nonempty
prefix: from the clamped seed scalar `s0` and the offset, compute both
candidates `s0 ± offset·8` (scalar arithmetic modulo `l`,
`scalarFromUint64(offset)` being the cast of the 64-bit offset), serialize
*both* with `scalarToKeyBytes` (`main.go` 148-149 — a panic there aborts the
command before any prefix check), then print the serialization of the first
candidate accepted by `good`, or panic with "prefix mismatch" if neither is
accepted.  In the Go binary `good s` is
`strings.HasPrefix(base64(pub(s)), prefix)`; in the C worker's `cmd_add` it
is equality with the expected vanity public key. -/
def cmdAddRun (good : ZMod lconst → Bool) (s0 : ZMod lconst) (off : ℕ) :
    AddResult :=
  let so := (off : ZMod lconst) * 8
  let sp := s0 + so
  let sm := s0 - so
  match scalarToKeyBytes sp with
  | none => .panicked
  | some skp =>
    match scalarToKeyBytes sm with
    | none => .panicked
    | some skm =>
      if good sp then .printed skp sp
      else if good sm then .printed skm sm
      else .mismatch

/-- The private-key bytes printed by `cmdAdd` for the `s0 + offset·8`
candidate, starting from the raw 32-byte seed read from stdin. -/
def cmdAddKeyPlus (seed : List ℕ) (off : ℕ) : Option (List ℕ) :=
  scalarToKeyBytes (setBytesWithClamping seed + (off : ZMod lconst) * 8)

/-- The private-key bytes printed by `cmdAdd` for the `s0 - offset·8`
candidate. -/
def cmdAddKeyMinus (seed : List ℕ) (off : ℕ) : Option (List ℕ) :=
  scalarToKeyBytes (setBytesWithClamping seed - (off : ZMod lconst) * 8)

/-! ## parsePublicKey (`main.go` 197-216) and the point decoder -/

/-- `Element.IsNegative` of the field library: the low bit of the canonical
encoding. -/
def isNegFe (x : ZMod pcurve) : Bool := x.val % 2 = 1

/-- `field.Element.SqrtRatio` (external library, RFC 9380 / RFC 8032 style):
candidate root `r = u·v³·(u·v⁷)^((p-5)/8)`, corrected by `sqrtM1` when the
check lands on `-u` or `-u·i`, made non-negative; the boolean reports whether
`u/v` was square. Modeled from the library. -/
def sqrtRatioMod (u v : ZMod pcurve) : ZMod pcurve × Bool :=
  let v2 := v * v
  let uv3 := u * (v2 * v)
  let uv7 := uv3 * (v2 * v2)
  let r0 := uv3 * fastPow uv7 ((pcurve - 5) / 8)
  let check := v * (r0 * r0)
  let correctSign := check = u
  let flippedSign := check = -u
  let flippedSignI := check = -u * sqrtM1
  let r1 := if flippedSign ∨ flippedSignI then r0 * sqrtM1 else r0
  let r2 := if isNegFe r1 then -r1 else r1
  (r2, correctSign ∨ flippedSign)

/-- `edwards25519.Point.SetBytes` (external library, RFC 8032 section
5.1.3): decode a compressed Edwards point from 32 bytes; `y` is the masked
little-endian value, the sign bit selects the sign of the recovered `x`;
fails exactly when `x² = (y²-1)/(dy²+1)` has no root.  Modeled from the
library; we return the affine pair `(x, y)`. -/
def pointSetBytes (b : List ℕ) : Option (ZMod pcurve × ZMod pcurve) :=
  if b.length ≠ 32 then none
  else
    let y : ZMod pcurve := ((fromBytesLE b % 2 ^ 255 : ℕ) : ZMod pcurve)
    let signBit := b.getD 31 0 >>> 7
    let y2 := y * y
    let num := y2 - 1
    let den := dconst * y2 + 1
    let sr := sqrtRatioMod num den
    if sr.2 = false then none
    else
      let x := if signBit % 2 = 1 then -sr.1 else sr.1
      some (x, y)

/-- `parsePublicKey` (`main.go` 197-216), after the external base64 framing:
length check, decode the Montgomery u-coordinate, map to the Edwards
`y = (u - 1)/(u + 1)` with the field's Fermat inversion, and decode the
compressed point. -/
def parsePublicKey (b : List ℕ) : Option (ZMod pcurve × ZMod pcurve) :=
  if b.length ≠ 32 then none
  else
    let u := feFromBytes b
    let y := (u - 1) * feInvert (u + 1)
    pointSetBytes (feBytes y)

/-! ## The batch search loop (`main.go` 218-300)

The loop is embedded twice.

First, fully concretely (`findBatchPointP3` below): points of
`P3 (ZMod pcurve)`, the source's cached-addition formulas, and the
shared-inversion `batchProjectionBytesMontgomery` with the Fermat
`feInvert` — the exact hot path of `main.go`.  This model is executable and
exhibits the loop's real behaviour, including the degenerate batches in
which a candidate with `T - Y = 0` zeroes the shared inversion.

Second, abstractly: a point type with an addition `padd`, neutral `pzero`,
increment point `qpt` (`pointOffset = 8·B`) and per-point encoding `bm`
(`BytesMontgomery`); the group laws the spec assumes of the library are
hypotheses of the theorems.  The loop tests the outputs of the batch
encoder `bmBatch` (the model of `batchProjectionBytesMontgomery` as a
function of the candidate points; its outputs are
representative-independent), not `bm` of the candidates — the two agree
exactly on non-degenerate batches (the C5 theorems).  The plain
`bm`-testing loop `findBatchPoint` is kept as the idealized reference.
Cancellation (`ctx.Done()`) is modelled by a fuel bound on the number of
batch iterations. -/

/-- The inner scan of a batch (`main.go` 290-295): apply `test` to the byte
strings in order, starting at local index `i`, and return the index of the
first hit. -/
def scanHits (test : List ℕ → Bool) : ℕ → List (List ℕ) → Option ℕ
  | _, [] => none
  | i, b :: rest => if test b then some i else scanHits test (i + 1) rest

section Search

variable {Pt : Type} (padd : Pt → Pt → Pt) (pzero : Pt) (qpt : Pt)
variable (bm : Pt → List ℕ) (test : List ℕ → Bool)

/-- `n`-fold sum `n·P` (the semantics of the library's `ScalarMult` for
`n < l`, used for the `skip` offset and for the reference point `P₀ + n·Q`). -/
def psmul : ℕ → Pt → Pt
  | 0, _ => pzero
  | n + 1, p => padd (psmul n p) p

/-- The offset table of `findBatchPoint` (`main.go` 266-272):
`offsets[0]` is the cached zero, `offsets[i] = i·Q` built by repeatedly
adding `Q`; the same iteration continued to `batchSize` gives `batchOffset`. -/
def offPt : ℕ → Pt
  | 0 => pzero
  | 1 => qpt
  | i + 2 => padd (offPt (i + 1)) qpt

/-- One batch of `findBatchPoint` (`main.go` 284-295): test the candidates
`pp + offsets[j]` for `j = start, …` while `rem` candidates remain, returning
the first matching local index. -/
def findInBatch (pp : Pt) : ℕ → ℕ → Option ℕ
  | _, 0 => none
  | j, rem + 1 =>
    if test (bm (padd pp (offPt padd pzero qpt j))) then some j
    else findInBatch pp (j + 1) rem

/-- The iteration of `findBatchPoint`'s `for` loop.  State: current center
`pp = P₀ + n·Q`, absolute offset `n`; each round either the context is done
(fuel exhausted: return `(n, false)` having run no further tests), or the
batch is scanned and on a hit at local index `i` the result is
`(n + i, true)` after `i + 1` tests, otherwise `n` advances by `batchSize`
and `pp` by `batchOffset = batchSize·Q`.  The third component counts the
predicate invocations. -/
def fbpLoop (batchSize : ℕ) : Pt → ℕ → ℕ → ℕ × Bool × ℕ
  | _, n, 0 => (n, false, 0)
  | pp, n, fuel + 1 =>
    match findInBatch padd pzero qpt bm test pp 0 batchSize with
    | some i => (n + i, true, i + 1)
    | none =>
      let r := fbpLoop batchSize (padd pp (offPt padd pzero qpt batchSize))
        (n + batchSize) fuel
      (r.1, r.2.1, r.2.2 + batchSize)

/-- `findBatchPoint` (`main.go` 251-300): start at `p = P₀ + skip·Q` and scan
successive batches.  Returns `(n, found, number of predicate invocations)`;
`findPointParallel` adds `n - skip` to the shared attempts counter. -/
def findBatchPoint (p0 : Pt) (skip batchSize fuel : ℕ) : ℕ × Bool × ℕ :=
  fbpLoop padd pzero qpt bm test batchSize
    (padd p0 (psmul padd pzero skip qpt)) skip fuel

variable (bmBatch : List Pt → List (List ℕ))

/-- One batch of `findBatchPoint` as the code performs it (`main.go`
284-295): the candidate points `pp + offsets[j]`, `j < batchSize`, are
encoded *as a batch* by the shared-inversion encoder `bmBatch`, and `test`
is applied to the batch outputs in order. -/
def findInBatchB (pp : Pt) (bs : ℕ) : Option ℕ :=
  scanHits test 0
    (bmBatch ((List.range bs).map fun j => padd pp (offPt padd pzero qpt j)))

/-- The `for` loop of `findBatchPoint` with the batch encoder explicit; same
state and bookkeeping as `fbpLoop`, but the predicate is applied to the
shared-inversion batch outputs, as in the source. -/
def fbpLoopB (bs : ℕ) : Pt → ℕ → ℕ → ℕ × Bool × ℕ
  | _, n, 0 => (n, false, 0)
  | pp, n, fuel + 1 =>
    match findInBatchB padd pzero qpt test bmBatch pp bs with
    | some i => (n + i, true, i + 1)
    | none =>
      let r := fbpLoopB bs (padd pp (offPt padd pzero qpt bs)) (n + bs) fuel
      (r.1, r.2.1, r.2.2 + bs)

/-- `findBatchPoint` (`main.go` 251-300) over the abstract point type, with
the batch encoder explicit: start at `p = P₀ + skip·Q` and scan successive
batches of shared-inversion outputs. -/
def findBatchPointB (p0 : Pt) (skip batchSize fuel : ℕ) : ℕ × Bool × ℕ :=
  fbpLoopB padd pzero qpt test bmBatch batchSize
    (padd p0 (psmul padd pzero skip qpt)) skip fuel

end Search

/-- The offsets-table construction of `findBatchPoint` (`main.go` 266-272):
starting from `oi = Q`, emit `count` cached offsets `offsets[i] = fromP3(oi)`
while advancing `oi` by `Q`; returns the cached list and the final `oi`
(from which `batchOffset` is cached, line 272). -/
def buildOffsets (qp : P3 (ZMod pcurve)) :
    ℕ → P3 (ZMod pcurve) → List (ProjCached (ZMod pcurve)) × P3 (ZMod pcurve)
  | 0, oi => ([], oi)
  | c + 1, oi =>
    let rest := buildOffsets qp c (p3Add oi qp)
    (cachedFromP3 d2const oi :: rest.1, rest.2)

/-- The `for` loop of `findBatchPoint` (`main.go` 277-299) over the concrete
field: each round forms the incomplete sums `projections[i] = pp +
offsets[i]`, extracts the batch of u-coordinates with the shared-inversion
`batchProjectionBytesMontgomery` (Fermat `feInvert`), and applies `test` to
their 32-byte encodings in order, returning `(n + i, true)` at the first
hit; otherwise `n` advances by `batchSize` and `pp` by the cached
`batchOffset`.  Fuel models `ctx.Done()`. -/
def fbpLoopP3 (test : List ℕ → Bool)
    (offsets : List (ProjCached (ZMod pcurve)))
    (batchOffset : ProjCached (ZMod pcurve)) (batchSize : ℕ) :
    ProjCached (ZMod pcurve) → ℕ → ℕ → ℕ × Bool
  | _, n, 0 => (n, false)
  | pp, n, fuel + 1 =>
    let projections := offsets.map fun o => p1xp1Add pp o
    let u := batchProjectionBytesMontgomery feInvert projections
    match scanHits test 0 (u.map feBytes) with
    | some i => (n + i, true)
    | none =>
      fbpLoopP3 test offsets batchOffset batchSize
        (cachedFromP1xP1 d2const (p1xp1Add pp batchOffset)) (n + batchSize) fuel

/-- `findBatchPoint` (`main.go` 251-300) over the concrete field, faithful
to the source: the start point `p = p0 + skip·Q` (library
`ScalarMult`/`Add`, lines 252-253), the offsets table `offsets[0] = zero`,
`offsets[i] = i·Q` for `1 ≤ i < batchSize` and `batchOffset = batchSize·Q`
(lines 266-274), then the batch loop on cached points.  Returns
`(n, found)`. -/
def findBatchPointP3 (test : List ℕ → Bool) (p0 : P3 (ZMod pcurve))
    (skip batchSize fuel : ℕ) : ℕ × Bool :=
  let p := p3Add p0 (p3smulP skip pointOffsetP3)
  let off := buildOffsets pointOffsetP3 (batchSize - 1) pointOffsetP3
  fbpLoopP3 test (cachedZero :: off.1) (cachedFromP3 d2const off.2) batchSize
    (cachedFromP3 d2const p) skip fuel

/-! ## The scalar/point offset correspondence (`main.go` 28-34, 84-94) -/

section Offset

variable {G : Type} [AddCommGroup G]

/-- The library's `ScalarBaseMult`: `s·B` for a reduced scalar. -/
def scalarBaseMultG (b : G) (s : ZMod lconst) : G := s.val • b

/-- The library's `ScalarMult`: `s·P` for a reduced scalar. -/
def scalarMultG (s : ZMod lconst) (p : G) : G := s.val • p

/-- `pointOffset = ScalarBaseMult(scalarOffset)` with `scalarOffset = 8`
(`main.go` 32-33). -/
def pointOffsetG (b : G) : G := scalarBaseMultG b 8

end Offset

/-! ## Base64 prefixes (`main.go` 368-418) -/

/-- The standard base64 alphabet (`stdEncoding` string of
`decodeBase64PrefixBits`). -/
def stdEncoding : List Char :=
  "ABCDEFGHIJKLMNOPQRSTUVWXYZabcdefghijklmnopqrstuvwxyz0123456789+/".toList

/-- The digit of a base64 character: its index in the standard alphabet. -/
def b64Digit (c : Char) : ℕ := stdEncoding.indexOf c

/-- The base64 character of a 6-bit digit. -/
def b64Char (dg : ℕ) : Char := stdEncoding.getD dg 'A' 

/-- The accumulation loop of `decodeBase64PrefixBits`: left-to-right, each
alphabet character contributes `acc*64 + digit`, `'='` is skipped, any other
character panics (modelled as `none`). -/
def b64DecAcc : ℕ → List Char → Option ℕ
  | acc, [] => some acc
  | acc, c :: cs =>
    if c ∈ stdEncoding then
      b64DecAcc (acc * 64 + (stdEncoding.indexOf c : ℕ)) cs
    else if c = '=' then b64DecAcc acc cs
    else none

/-- `decodeBase64PrefixBits` (`main.go` 390-418): returns the decoded prefix
bytes (big-endian, shifted into the high bits of the final partial byte) and
the number of decoded bits. -/
def decodeBase64PreBits (pre : List Char) : Option (List ℕ × ℕ) :=
  let decodedBits := 6 * pre.length
  let tailBits := decodedBits % 8
  match b64DecAcc 0 pre with
  | none => none
  | some n0 =>
    let n1 := if tailBits ≠ 0 then n0 * 2 ^ (8 - tailBits) else n0
    some (toBytesBE ((decodedBits + 7) / 8) n1, decodedBits)

/-- `testBase64Prefix` (`main.go` 368-387): the predicate on the raw 32-byte
public key.  When the bit count is not a multiple of 8 the final partial byte
is compared after shifting both sides right by `8 - bits%8`. -/
def testBase64Pre (pre : List Char) : Option (List ℕ → Bool) :=
  match decodeBase64PreBits pre with
  | none => none
  | some (decoded, decodedBits) =>
    if decodedBits % 8 = 0 then
      some fun b => decoded.isPrefixOf b
    else
      let decodedBytes := decodedBits / 8
      let shift := 8 - decodedBits % 8
      let tailByte := decoded.getD decodedBytes 0 >>> shift
      some fun b =>
        decide (decodedBytes < b.length) &&
          (b.take decodedBytes == decoded.take decodedBytes) &&
          (b.getD decodedBytes 0 >>> shift == tailByte)

/-- The 6-bit digits of the standard base64 encoding of a byte string: the
bit stream (most significant bit first), zero-padded to a 6-bit boundary, cut
into 6-bit groups.  For `m` of length 32 this gives the 43 data characters
produced by `base64.StdEncoding`. -/
def base64EncodeDigits (m : List ℕ) : List ℕ :=
  let nchars := (8 * m.length + 5) / 6
  digitsBE 64 nchars (valBE m * 2 ^ (6 * nchars - 8 * m.length))

/-- The standard base64 encoding (`base64.StdEncoding.EncodeToString`):
alphabet characters for the 6-bit digits followed by `'='` padding. -/
def base64Encode (m : List ℕ) : List Char :=
  (base64EncodeDigits m).map b64Char ++
    List.replicate ((3 - m.length % 3) % 3) '='

/-- The compiled predicate of `testBase64Prefix("AA")`: the first 12 bits of
the 32-byte key must be zero (the fallback function is never reached, the
prefix being two valid alphabet characters). -/
def testAA : List ℕ → Bool :=
  (testBase64Pre [Char.ofNat 65, Char.ofNat 65]).getD fun _ => false

instance : NeZero lconst := ⟨by decide⟩

instance : NeZero pcurve := ⟨by decide⟩

/-! ## Byte-list lemmas -/

theorem fromBytesLE_nil : fromBytesLE [] = 0 := rfl

theorem fromBytesLE_cons (b : ℕ) (l : List ℕ) :
    fromBytesLE (b :: l) = b + 256 * fromBytesLE l := rfl

theorem toBytesLE_length (w v : ℕ) : (toBytesLE w v).length = w := by
  induction w generalizing v with
  | zero => rfl
  | succ w ih => simp [toBytesLE, ih]

theorem toBytesLE_mem_lt (w v : ℕ) : ∀ b ∈ toBytesLE w v, b < 256 := by
  induction w generalizing v with
  | zero => simp [toBytesLE]
  | succ w ih =>
    intro b hb
    simp only [toBytesLE, List.mem_cons] at hb
    rcases hb with h | h
    · subst h; exact Nat.mod_lt _ (by norm_num)
    · exact ih _ b h

theorem fromBytesLE_toBytesLE (w v : ℕ) (h : v < 256 ^ w) :
    fromBytesLE (toBytesLE w v) = v := by
  induction w generalizing v with
  | zero => simp at h; simp [toBytesLE, fromBytesLE_nil, h]
  | succ w ih =>
    have hdiv : v / 256 < 256 ^ w := by
      rw [Nat.div_lt_iff_lt_mul (by norm_num)]
      calc v < 256 ^ (w + 1) := h
        _ = 256 ^ w * 256 := by ring
    simp [toBytesLE, fromBytesLE_cons, ih _ hdiv]
    omega

theorem toBytesLE_fromBytesLE (l : List ℕ) (hl : ∀ b ∈ l, b < 256) :
    toBytesLE l.length (fromBytesLE l) = l := by
  induction l with
  | nil => rfl
  | cons b t ih =>
    have hb : b < 256 := hl b (List.mem_cons_self ..)
    have ht : ∀ x ∈ t, x < 256 := fun x hx => hl x (List.mem_cons_of_mem _ hx)
    simp only [List.length_cons, toBytesLE, fromBytesLE_cons]
    have h1 : (b + 256 * fromBytesLE t) % 256 = b := by omega
    have h2 : (b + 256 * fromBytesLE t) / 256 = fromBytesLE t := by omega
    rw [h1, h2, ih ht]

/-! ## C2: public enumeration by Q matches private enumeration by 8·n -/

theorem nsmul_lconst_mod {G : Type} [AddCommGroup G] (b : G)
    (hb : lconst • b = 0) (a : ℕ) : (a % lconst) • b = a • b := by
  conv_rhs => rw [← Nat.div_add_mod a lconst]
  rw [add_nsmul, mul_nsmul, hb, smul_zero, zero_add]

/-- C2.  For every clamped scalar `s0` and every offset `n`, the private key
the program outputs, `s0 + n·scalarOffset` (all scalar arithmetic modulo
`l`), has exactly the public key `P₀ + n·pointOffset` that the search
matched: `(s0 + 8n)·B = s0·B + n·(8·B)`.  The curve group is abstract; the
only assumption on the library is that the base point satisfies `l·B = 0`
(`B` generates the prime-order subgroup). -/
theorem offset_roundtrip {G : Type} [AddCommGroup G] (b : G)
    (hb : lconst • b = 0) (s0 : ZMod lconst) (n : ℕ) :
    scalarBaseMultG b (s0 + (n : ZMod lconst) * 8) =
      scalarBaseMultG b s0 + scalarMultG ((n : ZMod lconst)) (pointOffsetG b) := by
  unfold scalarBaseMultG scalarMultG pointOffsetG scalarBaseMultG
  have h8 : (8 : ZMod lconst).val = 8 := by decide
  set nv := ZMod.val (n : ZMod lconst) with hnv
  have key : (s0 + (n : ZMod lconst) * 8).val = (s0.val + 8 * nv) % lconst := by
    rw [ZMod.val_add, ZMod.val_mul, h8, ← hnv]
    have hme : (s0.val + nv * 8 % lconst) % lconst
        = (s0.val + nv * 8) % lconst :=
      Nat.ModEq.add_left s0.val (Nat.mod_modEq (nv * 8) lconst)
    rw [hme, Nat.mul_comm]
  rw [h8, key, nsmul_lconst_mod b hb, add_nsmul, mul_nsmul]

/-- Witness for `offset_roundtrip`: the hypothesis `l·B = 0` holds for
`B = 1` in the additive group `ZMod l` itself, applied at `s0 = 2, n = 3`. -/
theorem offset_roundtrip_witness :
    scalarBaseMultG (1 : ZMod lconst) (2 + (3 : ℕ) * 8) =
      scalarBaseMultG (1 : ZMod lconst) 2 +
        scalarMultG ((3 : ℕ)) (pointOffsetG (1 : ZMod lconst)) := by
  have hb : lconst • (1 : ZMod lconst) = 0 := by
    rw [nsmul_eq_mul, mul_one, ZMod.natCast_self]
  exact offset_roundtrip (1 : ZMod lconst) hb 2 3

/-! ## C6: the `add` command -/

/-- Counterexample to C6 as stated: for the seed encoding `2^254 + 8`
(clamp-invariant) with offset 0, both candidates equal the clamped seed
scalar and the match predicate (here: always true) accepts them, yet
`cmdAdd` panics inside `scalarToKeyBytes` (the clamped scalar's alias index
is 3 < 4) before reaching any prefix check: it neither prints a matching
candidate nor reports the mismatch error. -/
theorem cmdAddRun_panic_counterexample :
    cmdAddRun (fun _ => true)
        (setBytesWithClamping (toBytesLE 32 (2 ^ 254 + 8))) 0 =
      AddResult.panicked := by
  decide

/-- C6 (amended).  Provided the private-key serializer succeeds on both
candidates (`scalarToKeyBytes` does not panic on either — without this the
command aborts before any check, see the counterexample), the recovery
operation prints the serialization of the candidate `s0 + 8·offset` if the
match predicate accepts it, else that of `s0 - 8·offset` if accepted, and
reports the mismatch error exactly when neither candidate is accepted. -/
theorem cmdAddRun_characterization (good : ZMod lconst → Bool)
    (s0 : ZMod lconst) (off : ℕ)
    (hp : scalarToKeyBytes (s0 + (off : ZMod lconst) * 8) ≠ none)
    (hm : scalarToKeyBytes (s0 - (off : ZMod lconst) * 8) ≠ none) :
    (cmdAddRun good s0 off = AddResult.mismatch ↔
      good (s0 + (off : ZMod lconst) * 8) = false ∧
        good (s0 - (off : ZMod lconst) * 8) = false) ∧
    (∀ k s, cmdAddRun good s0 off = AddResult.printed k s →
      good s = true ∧
        ((s = s0 + (off : ZMod lconst) * 8 ∧ scalarToKeyBytes s = some k) ∨
          (s = s0 - (off : ZMod lconst) * 8 ∧ scalarToKeyBytes s = some k))) := by
  rcases hps : scalarToKeyBytes (s0 + (off : ZMod lconst) * 8) with _ | skp
  · exact absurd hps hp
  rcases hms : scalarToKeyBytes (s0 - (off : ZMod lconst) * 8) with _ | skm
  · exact absurd hms hm
  have he : cmdAddRun good s0 off =
      if good (s0 + (off : ZMod lconst) * 8) then
        AddResult.printed skp (s0 + (off : ZMod lconst) * 8)
      else if good (s0 - (off : ZMod lconst) * 8) then
        AddResult.printed skm (s0 - (off : ZMod lconst) * 8)
      else AddResult.mismatch := by
    simp only [cmdAddRun]
    rw [hps, hms]
  rw [he]
  split_ifs with h1 h2
  · refine ⟨by simp [h1], fun k s hks => ?_⟩
    injection hks with h3 h4
    subst h3; subst h4
    exact ⟨h1, Or.inl ⟨rfl, hps⟩⟩
  · refine ⟨by simp [h1, h2], fun k s hks => ?_⟩
    injection hks with h3 h4
    subst h3; subst h4
    exact ⟨h2, Or.inr ⟨rfl, hms⟩⟩
  · refine ⟨⟨fun _ => ⟨by simpa using h1, by simpa using h2⟩, fun _ => rfl⟩,
      fun k s hks => ?_⟩
    exact absurd hks (by simp)

/-- Witness for `cmdAddRun_characterization`: the scalar `s0 = 2` with
offset 0 (alias index 6, so the serializer succeeds on both candidates) and
an always-true predicate. -/
theorem cmdAddRun_characterization_witness :
    (cmdAddRun (fun _ => true) 2 0 = AddResult.mismatch ↔
      (fun _ : ZMod lconst => true) (2 + ((0 : ℕ) : ZMod lconst) * 8) = false ∧
        (fun _ : ZMod lconst => true) (2 - ((0 : ℕ) : ZMod lconst) * 8) = false) ∧
    (∀ k s, cmdAddRun (fun _ => true) 2 0 = AddResult.printed k s →
      (fun _ : ZMod lconst => true) s = true ∧
        ((s = 2 + ((0 : ℕ) : ZMod lconst) * 8 ∧ scalarToKeyBytes s = some k) ∨
          (s = 2 - ((0 : ℕ) : ZMod lconst) * 8 ∧ scalarToKeyBytes s = some k))) :=
  cmdAddRun_characterization (fun _ => true) 2 0 (by decide) (by decide)

/-! ## C4: vectorDivision computes elementwise quotients with one inversion -/

section VectorDivisionProofs

variable {K : Type} [CommRing K]

theorem vdForward_count (r : K) (xs ys : List K) (h : xs.length = ys.length) :
    (vdForward r xs ys).2.2 = 2 * xs.length := by
  induction xs generalizing ys r with
  | nil => cases ys <;> simp_all [vdForward]
  | cons x xs ih =>
    cases ys with
    | nil => simp at h
    | cons y ys =>
      simp only [vdForward, List.length_cons]
      rw [ih (r * y) ys (by simpa using h)]
      ring

theorem vdForward_pairs_length (r : K) (xs ys : List K)
    (h : xs.length = ys.length) : (vdForward r xs ys).1.length = xs.length := by
  induction xs generalizing ys r with
  | nil => cases ys <;> simp_all [vdForward]
  | cons x xs ih =>
    cases ys with
    | nil => simp at h
    | cons y ys =>
      simp only [vdForward, List.length_cons]
      rw [ih (r * y) ys (by simpa using h)]

theorem vdForward_prod (r : K) (xs ys : List K) (h : xs.length = ys.length) :
    (vdForward r xs ys).2.1 = r * ys.prod := by
  induction xs generalizing ys r with
  | nil => cases ys <;> simp_all [vdForward]
  | cons x xs ih =>
    cases ys with
    | nil => simp at h
    | cons y ys =>
      simp only [vdForward, List.prod_cons]
      rw [ih (r * y) ys (by simpa using h)]
      ring

theorem vdBackward_count (t : K) (l : List (K × K)) :
    (vdBackward t l).2.2 = 2 * l.length := by
  induction l generalizing t with
  | nil => rfl
  | cons p l ih =>
    obtain ⟨y, s⟩ := p
    simp only [vdBackward, List.length_cons]
    rw [ih]
    ring

theorem vdBackward_append (t : K) (l1 l2 : List (K × K)) :
    vdBackward t (l1 ++ l2) =
      ((vdBackward t l1).1 ++ (vdBackward (vdBackward t l1).2.1 l2).1,
        (vdBackward (vdBackward t l1).2.1 l2).2.1,
        (vdBackward t l1).2.2 + (vdBackward (vdBackward t l1).2.1 l2).2.2) := by
  induction l1 generalizing t with
  | nil => simp [vdBackward]
  | cons p l1 ih =>
    obtain ⟨y, s⟩ := p
    have h1 : vdBackward t (((y, s) :: l1) ++ l2) =
        (t * s :: (vdBackward (t * y) (l1 ++ l2)).1,
          (vdBackward (t * y) (l1 ++ l2)).2.1,
          (vdBackward (t * y) (l1 ++ l2)).2.2 + 2) := rfl
    have h2 : vdBackward t ((y, s) :: l1) =
        (t * s :: (vdBackward (t * y) l1).1,
          (vdBackward (t * y) l1).2.1,
          (vdBackward (t * y) l1).2.2 + 2) := rfl
    rw [h1, h2, ih (t * y)]
    simp only [Prod.mk.injEq, List.cons_append]
    exact ⟨trivial, trivial, by omega⟩

end VectorDivisionProofs

section VectorDivisionField

variable {K : Type} [Field K]

/-- Core invariant of the two passes of `vectorDivision`: if `t` inverts the
full running product then the backward pass produces, in reverse order, the
quotients for the tail entries, and leaves `t` at the inverse of `r0`. -/
theorem vd_main (xs : List K) : ∀ (ys : List K) (r0 t : K),
    xs.length = ys.length → (∀ y ∈ ys, y ≠ 0) →
    t * (vdForward r0 xs ys).2.1 = 1 →
    List.Forall₂ (fun u xy => u * xy.2 = xy.1)
      ((vdBackward t (vdForward r0 xs ys).1.reverse).1.reverse) (xs.zip ys) ∧
    (vdBackward t (vdForward r0 xs ys).1.reverse).2.1 * r0 = 1 := by
  induction xs with
  | nil =>
    intro ys r0 t hlen _ ht
    cases ys with
    | nil => exact ⟨List.Forall₂.nil, by simpa [vdForward, vdBackward] using ht⟩
    | cons y ys => simp at hlen
  | cons x xs ih =>
    intro ys r0 t hlen hys ht
    cases ys with
    | nil => simp at hlen
    | cons y ys =>
      have hlen' : xs.length = ys.length := by simpa using hlen
      have hys' : ∀ v ∈ ys, v ≠ 0 := fun v hv => hys v (List.mem_cons_of_mem _ hv)
      simp only [vdForward] at ht ⊢
      have hrec := ih ys (r0 * y) t hlen' hys' ht
      simp only [List.reverse_cons, vdBackward_append] at *
      set B := vdBackward t (vdForward (r0 * y) xs ys).1.reverse with hB
      obtain ⟨hfa, htf⟩ := hrec
      have hstep : vdBackward B.2.1 [(y, r0 * x)] =
          ([B.2.1 * (r0 * x)], B.2.1 * y, 2) := rfl
      rw [hstep]
      constructor
      · simp only [List.reverse_append, List.reverse_cons, List.reverse_nil,
          List.nil_append, List.cons_append, List.zip_cons_cons]
        refine List.Forall₂.cons ?_ ?_
        · have h2 : B.2.1 * (r0 * y) = 1 := htf
          linear_combination x * h2
        · simpa using hfa
      · have h2 : B.2.1 * (r0 * y) = 1 := htf
        linear_combination h2

theorem forall2_getD {α β : Type} {R : α → β → Prop} :
    ∀ {l1 : List α} {l2 : List β}, List.Forall₂ R l1 l2 →
      ∀ i, i < l1.length → ∀ (d1 : α) (d2 : β), R (l1.getD i d1) (l2.getD i d2) := by
  intro l1 l2 h
  induction h with
  | nil => intro i hi; simp at hi
  | cons hab hrest ih =>
    intro i hi d1 d2
    cases i with
    | zero => simpa using hab
    | succ i => simpa using ih i (by simpa using hi) d1 d2

theorem zip_getD {α β : Type} :
    ∀ (l1 : List α) (l2 : List β) (i : ℕ), i < l1.length → i < l2.length →
      ∀ (d1 : α) (d2 : β), (l1.zip l2).getD i (d1, d2) = (l1.getD i d1, l2.getD i d2) := by
  intro l1
  induction l1 with
  | nil => intro l2 i hi; simp at hi
  | cons a l1 ih =>
    intro l2 i hi1 hi2 d1 d2
    cases l2 with
    | nil => simp at hi2
    | cons b l2 =>
      cases i with
      | zero => simp
      | succ i =>
        simp only [List.zip_cons_cons, List.getD_cons_succ]
        exact ih l2 i (by simpa using hi1) (by simpa using hi2) d1 d2

/-- The values produced by `vectorDivision` (with the true field inversion)
are elementwise quotients: shared workhorse for the `vectorDivision` and
batch-enumeration theorems. -/
theorem vectorDivision_forall2 (x y : List K) (hlen : x.length = y.length)
    (hy : ∀ v ∈ y, v ≠ 0) :
    List.Forall₂ (fun u xy => u * xy.2 = xy.1)
      ((vectorDivision Inv.inv x y).1) (x.zip y) := by
  cases x with
  | nil => exact List.Forall₂.nil
  | cons x0 xs =>
    cases y with
    | nil => simp at hlen
    | cons y0 ys =>
      have hlen' : xs.length = ys.length := by simpa using hlen
      have hy0 : y0 ≠ 0 := hy y0 (List.mem_cons_self ..)
      have hys : ∀ v ∈ ys, v ≠ 0 := fun v hv => hy v (List.mem_cons_of_mem _ hv)
      have hprod : (vdForward y0 xs ys).2.1 ≠ 0 := by
        rw [vdForward_prod y0 xs ys hlen']
        exact mul_ne_zero hy0 (List.prod_ne_zero fun h0 => hys 0 h0 rfl)
      have ht : ((vdForward y0 xs ys).2.1)⁻¹ * (vdForward y0 xs ys).2.1 = 1 :=
        inv_mul_cancel₀ hprod
      obtain ⟨hfa, htf⟩ :=
        vd_main xs ys y0 ((vdForward y0 xs ys).2.1)⁻¹ hlen' hys ht
      simp only [vectorDivision, List.zip_cons_cons]
      exact List.Forall₂.cons (by linear_combination x0 * htf) hfa

/-- C4.  For vectors `x`, `y` of equal length `n ≥ 1` with every `y[i]`
nonzero, `vectorDivision` computes `u[i]` with `u[i]·y[i] = x[i]` for every
`i`, using exactly one modular inversion and `4(n-1)+1` field
multiplications.  The field inversion is the `inv` parameter (the external
`Element.Invert`, whose contract on the field GF(2^255-19) is `Inv.inv`). -/
theorem vectorDivision_correct (x y : List K) (hlen : x.length = y.length)
    (hx : 1 ≤ x.length) (hy : ∀ v ∈ y, v ≠ 0) :
    (∀ i, i < x.length →
      (vectorDivision Inv.inv x y).1.getD i 0 * y.getD i 0 = x.getD i 0) ∧
    (vectorDivision Inv.inv x y).2.1 = 4 * (x.length - 1) + 1 ∧
    (vectorDivision Inv.inv x y).2.2 = 1 := by
  have hall := vectorDivision_forall2 x y hlen hy
  cases x with
  | nil => simp at hx
  | cons x0 xs =>
    cases y with
    | nil => simp at hlen
    | cons y0 ys =>
      have hlen' : xs.length = ys.length := by simpa using hlen
      refine ⟨?_, ?_, rfl⟩
      · intro i hi
        have hlen2 : (vectorDivision Inv.inv (x0 :: xs) (y0 :: ys)).1.length
            = (x0 :: xs).length := by
          rw [List.Forall₂.length_eq hall, List.length_zip, hlen]
          simp
        have := forall2_getD hall i (by rw [hlen2]; exact hi) 0 (0, 0)
        rwa [zip_getD (x0 :: xs) (y0 :: ys) i hi (hlen ▸ hi) 0 0] at this
      · simp only [vectorDivision]
        rw [vdForward_count y0 xs ys hlen', vdBackward_count,
          List.length_reverse, vdForward_pairs_length y0 xs ys hlen']
        simp
        omega

end VectorDivisionField

/-- Witness for `vectorDivision_correct`, instantiated in the field
`ZMod 11` at `x = [3]`, `y = [2]`. -/
theorem vectorDivision_correct_witness :
    (∀ i, i < ([(3 : ZMod 11)] : List (ZMod 11)).length →
      (vectorDivision Inv.inv [(3 : ZMod 11)] [2]).1.getD i 0 *
          ([(2 : ZMod 11)] : List (ZMod 11)).getD i 0 =
        ([(3 : ZMod 11)] : List (ZMod 11)).getD i 0) ∧
    (vectorDivision Inv.inv [(3 : ZMod 11)] [2]).2.1 = 4 * (1 - 1) + 1 ∧
    (vectorDivision Inv.inv [(3 : ZMod 11)] [2]).2.2 = 1 := by
  have h1 : 1 ≤ ([(3 : ZMod 11)] : List (ZMod 11)).length := by decide
  have h2 : ∀ v ∈ ([(2 : ZMod 11)] : List (ZMod 11)), v ≠ 0 := by decide
  haveI : Fact (Nat.Prime 11) := ⟨by norm_num⟩
  exact vectorDivision_correct [(3 : ZMod 11)] [(2 : ZMod 11)] rfl h1 h2

/-! ## C5: the batched Montgomery-u computation vs the per-point reference -/

section BatchProofs

variable {K : Type} [Field K]

theorem forall2_eq_map_div :
    ∀ {us : List K} {pairs : List (K × K)},
      List.Forall₂ (fun u xy => u * xy.2 = xy.1) us pairs →
      (∀ p ∈ pairs, p.2 ≠ 0) →
      us = pairs.map fun q => q.1 * q.2⁻¹ := by
  intro us pairs h
  induction h with
  | nil => intro; rfl
  | cons hab hrest ih =>
    intro hne
    rename_i u xy us' pairs'
    have hb : xy.2 ≠ 0 := hne xy (List.mem_cons_self ..)
    have hu : u = xy.1 * xy.2⁻¹ := by
      rw [← hab, mul_assoc, mul_inv_cancel₀ hb, mul_one]
    simp only [List.map_cons]
    rw [hu, ih fun p hp => hne p (List.mem_cons_of_mem _ hp)]

theorem vectorDivision_div (x y : List K) (hlen : x.length = y.length)
    (hy : ∀ v ∈ y, v ≠ 0) :
    (vectorDivision Inv.inv x y).1 = (x.zip y).map fun q => q.1 * q.2⁻¹ :=
  forall2_eq_map_div (vectorDivision_forall2 x y hlen hy)
    fun p hp => hy p.2 (List.of_mem_zip hp).2

theorem montu_ratio (z y : K) (hz : z ≠ 0) (hzy : z - y ≠ 0) :
    (z + y) * (z - y)⁻¹ = (1 + y * z⁻¹) * (1 - y * z⁻¹)⁻¹ := by
  have h1 : (1 : K) - y * z⁻¹ = (z - y) * z⁻¹ := by
    rw [sub_mul, mul_inv_cancel₀ hz]
  have h2 : (1 : K) + y * z⁻¹ = (z + y) * z⁻¹ := by
    rw [add_mul, mul_inv_cancel₀ hz]
  rw [h1, h2, mul_inv_rev, inv_inv]
  calc (z + y) * (z - y)⁻¹
      = (z + y) * (z⁻¹ * z) * (z - y)⁻¹ := by rw [inv_mul_cancel₀ hz, mul_one]
    _ = (z + y) * z⁻¹ * (z * (z - y)⁻¹) := by ring

/-- C5 (amended).  Provided every point of the batch has a nonzero `Z` and
`Z ≠ Y` — that is, none is the neutral element, whose denominator `Z - Y`
would zero the shared product inversion — `batchBytesMontgomery` produces for
each index the same field element as `Point.BytesMontgomery`, for every batch
length; likewise `batchProjectionBytesMontgomery` on `projP1xP1` sums with
`Z ≠ 0`, `T ≠ 0`, `T ≠ Y` matches `BytesMontgomery` of the completed point. -/
theorem batchBytesMontgomery_agrees :
    (∀ pts : List (P3 K), (∀ q ∈ pts, q.Z ≠ 0 ∧ q.Z - q.Y ≠ 0) →
      batchBytesMontgomery Inv.inv pts = pts.map (bytesMontgomery Inv.inv)) ∧
    (∀ ps : List (ProjP1xP1 K),
      (∀ q ∈ ps, q.Z ≠ 0 ∧ q.T ≠ 0 ∧ q.T - q.Y ≠ 0) →
      batchProjectionBytesMontgomery Inv.inv ps =
        ps.map fun q => bytesMontgomery Inv.inv (p3FromP1xP1 q)) := by
  constructor
  · intro pts h
    unfold batchBytesMontgomery
    rw [vectorDivision_div (pts.map fun v => v.Z + v.Y)
        (pts.map fun v => v.Z - v.Y) (by simp) ?hy]
    case hy =>
      intro v hv
      obtain ⟨q, hq, rfl⟩ := List.mem_map.1 hv
      exact (h q hq).2
    rw [List.zip_map' (fun v : P3 K => v.Z + v.Y) (fun v : P3 K => v.Z - v.Y) pts,
      List.map_map]
    refine List.map_congr_left fun q hq => ?_
    obtain ⟨hz, hzy⟩ := h q hq
    simpa [bytesMontgomery] using montu_ratio q.Z q.Y hz hzy
  · intro ps h
    unfold batchProjectionBytesMontgomery
    rw [vectorDivision_div (ps.map fun p => p.T + p.Y)
        (ps.map fun p => p.T - p.Y) (by simp) ?hy]
    case hy =>
      intro v hv
      obtain ⟨q, hq, rfl⟩ := List.mem_map.1 hv
      exact (h q hq).2.2
    rw [List.zip_map' (fun p : ProjP1xP1 K => p.T + p.Y)
        (fun p : ProjP1xP1 K => p.T - p.Y) ps, List.map_map]
    refine List.map_congr_left fun q hq => ?_
    obtain ⟨hz, ht, hty⟩ := h q hq
    have hcancel : q.Y * q.Z * (q.Z * q.T)⁻¹ = q.Y * q.T⁻¹ := by
      rw [mul_inv_rev]
      field_simp
      ring
    simp only [Function.comp, bytesMontgomery, p3FromP1xP1, hcancel]
    exact montu_ratio q.T q.Y ht hty

end BatchProofs

/-- Witness for `batchBytesMontgomery_agrees`, applied over `ZMod 11` to a
singleton batch of a point with nonzero denominators, for both the
extended-coordinates and the projective form. -/
theorem batchBytesMontgomery_agrees_witness :
    batchBytesMontgomery Inv.inv ([⟨0, 1, 2, 0⟩] : List (P3 (ZMod 11))) =
        ([⟨0, 1, 2, 0⟩] : List (P3 (ZMod 11))).map (bytesMontgomery Inv.inv) ∧
    batchProjectionBytesMontgomery Inv.inv
          ([⟨0, 1, 2, 3⟩] : List (ProjP1xP1 (ZMod 11))) =
        ([⟨0, 1, 2, 3⟩] : List (ProjP1xP1 (ZMod 11))).map
          fun q => bytesMontgomery Inv.inv (p3FromP1xP1 q) := by
  have h1 : ∀ q ∈ ([⟨0, 1, 2, 0⟩] : List (P3 (ZMod 11))),
      q.Z ≠ 0 ∧ q.Z - q.Y ≠ 0 := by decide
  have h2 : ∀ q ∈ ([⟨0, 1, 2, 3⟩] : List (ProjP1xP1 (ZMod 11))),
      q.Z ≠ 0 ∧ q.T ≠ 0 ∧ q.T - q.Y ≠ 0 := by decide
  haveI : Fact (Nat.Prime 11) := ⟨by norm_num⟩
  exact ⟨batchBytesMontgomery_agrees.1 _ h1, batchBytesMontgomery_agrees.2 _ h2⟩

set_option maxRecDepth 40000 in
/-- Counterexample to C5 as stated: for the batch consisting of the neutral
element `(0 : 1 : 1 : 0)` and the on-curve point `(sqrt(-1) : 0 : 1 : 0)` of
order four, the batched computation differs from the per-point
`BytesMontgomery` reference at index 1: the neutral element's denominator
`Z - Y = 0` collapses the shared Fermat inversion, so the batch yields 0
while the reference yields 1. -/
theorem batchBytesMontgomery_counterexample :
    onCurve ⟨0, 1, 1, 0⟩ ∧ onCurve ⟨sqrtM1, 0, 1, 0⟩ ∧
      batchBytesMontgomery feInvert
          ([⟨0, 1, 1, 0⟩, ⟨sqrtM1, 0, 1, 0⟩] : List (P3 (ZMod pcurve))) ≠
        ([⟨0, 1, 1, 0⟩, ⟨sqrtM1, 0, 1, 0⟩] : List (P3 (ZMod pcurve))).map
          (bytesMontgomery feInvert) := by
  refine ⟨⟨by decide, by decide, by decide⟩, ⟨by decide, by decide, by decide⟩, by decide⟩

/-! ## C1 and C10: the batch search loop -/

section SearchProofs

variable {Pt : Type} (padd : Pt → Pt → Pt) (pzero : Pt) (qpt : Pt)
variable (bm : Pt → List ℕ) (test : List ℕ → Bool)
variable (bmBatch : List Pt → List (List ℕ))

theorem psmul_add (hassoc : ∀ a b c, padd (padd a b) c = padd a (padd b c))
    (hid : ∀ a, padd a pzero = a) (m n : ℕ) (p : Pt) :
    psmul padd pzero (m + n) p =
      padd (psmul padd pzero m p) (psmul padd pzero n p) := by
  induction n with
  | zero => simp [psmul, hid]
  | succ n ih =>
    show padd (psmul padd pzero (m + n) p) p = _
    rw [ih, hassoc]
    rfl

theorem offPt_eq (hcomm : ∀ a b, padd a b = padd b a)
    (hid : ∀ a, padd a pzero = a) :
    ∀ i, offPt padd pzero qpt i = psmul padd pzero i qpt
  | 0 => rfl
  | 1 => by
    show qpt = padd pzero qpt
    rw [hcomm, hid]
  | i + 2 => by
    show padd (offPt padd pzero qpt (i + 1)) qpt = _
    rw [offPt_eq hcomm hid (i + 1)]
    rfl

theorem candidate_eq (hassoc : ∀ a b c, padd (padd a b) c = padd a (padd b c))
    (hcomm : ∀ a b, padd a b = padd b a) (hid : ∀ a, padd a pzero = a)
    (p0 : Pt) (n j : ℕ) :
    padd (padd p0 (psmul padd pzero n qpt)) (offPt padd pzero qpt j) =
      padd p0 (psmul padd pzero (n + j) qpt) := by
  rw [offPt_eq padd pzero qpt hcomm hid j, hassoc,
    ← psmul_add padd pzero hassoc hid n j qpt]

theorem findInBatch_some :
    ∀ (rem j : ℕ) (pp : Pt) (i : ℕ),
      findInBatch padd pzero qpt bm test pp j rem = some i →
      j ≤ i ∧ i < j + rem ∧ test (bm (padd pp (offPt padd pzero qpt i))) = true ∧
        ∀ m, j ≤ m → m < i →
          test (bm (padd pp (offPt padd pzero qpt m))) = false := by
  intro rem
  induction rem with
  | zero => intro j pp i h; simp [findInBatch] at h
  | succ rem ih =>
    intro j pp i h
    by_cases ht : test (bm (padd pp (offPt padd pzero qpt j))) = true
    · have : findInBatch padd pzero qpt bm test pp j (rem + 1) = some j := by
        simp [findInBatch, ht]
      rw [this] at h
      obtain rfl : j = i := by simpa using h
      exact ⟨le_refl j, by omega, ht,
        fun m h1 h2 => absurd (lt_of_le_of_lt h1 h2) (lt_irrefl _)⟩
    · have hf : test (bm (padd pp (offPt padd pzero qpt j))) = false := by
        simpa using ht
      have : findInBatch padd pzero qpt bm test pp j (rem + 1) =
          findInBatch padd pzero qpt bm test pp (j + 1) rem := by
        simp [findInBatch, hf]
      rw [this] at h
      obtain ⟨h1, h2, h3, h4⟩ := ih (j + 1) pp i h
      refine ⟨by omega, by omega, h3, fun m hm1 hm2 => ?_⟩
      rcases Nat.eq_or_lt_of_le hm1 with rfl | hlt
      · exact hf
      · exact h4 m hlt hm2

theorem findInBatch_none :
    ∀ (rem j : ℕ) (pp : Pt),
      findInBatch padd pzero qpt bm test pp j rem = none →
      ∀ m, j ≤ m → m < j + rem →
        test (bm (padd pp (offPt padd pzero qpt m))) = false := by
  intro rem
  induction rem with
  | zero => intro j pp _ m h1 h2; omega
  | succ rem ih =>
    intro j pp h m h1 h2
    by_cases ht : test (bm (padd pp (offPt padd pzero qpt j))) = true
    · simp [findInBatch, ht] at h
    · have hf : test (bm (padd pp (offPt padd pzero qpt j))) = false := by
        simpa using ht
      have hrec : findInBatch padd pzero qpt bm test pp (j + 1) rem = none := by
        simpa [findInBatch, hf] using h
      rcases Nat.eq_or_lt_of_le h1 with rfl | hlt
      · exact hf
      · exact ih (j + 1) pp hrec m hlt (by omega)

/-- Functional-correctness invariant of the batch loop: when the loop run
from offset `n` (center `P₀ + n·Q`) reports a match, the reported offset is
at least `n`, its point satisfies the predicate, and every offset from `n` up
to it fails the predicate. -/
theorem fbpLoop_spec (hassoc : ∀ a b c, padd (padd a b) c = padd a (padd b c))
    (hcomm : ∀ a b, padd a b = padd b a) (hid : ∀ a, padd a pzero = a)
    (p0 : Pt) (bs : ℕ) :
    ∀ (fuel n : ℕ),
      (fbpLoop padd pzero qpt bm test bs
          (padd p0 (psmul padd pzero n qpt)) n fuel).2.1 = true →
      n ≤ (fbpLoop padd pzero qpt bm test bs
          (padd p0 (psmul padd pzero n qpt)) n fuel).1 ∧
      test (bm (padd p0 (psmul padd pzero
          ((fbpLoop padd pzero qpt bm test bs
            (padd p0 (psmul padd pzero n qpt)) n fuel).1) qpt))) = true ∧
      ∀ m, n ≤ m →
        m < (fbpLoop padd pzero qpt bm test bs
            (padd p0 (psmul padd pzero n qpt)) n fuel).1 →
        test (bm (padd p0 (psmul padd pzero m qpt))) = false := by
  intro fuel
  induction fuel with
  | zero => intro n h; simp [fbpLoop] at h
  | succ fuel ih =>
    intro n h
    set pp := padd p0 (psmul padd pzero n qpt) with hpp
    rcases hfb : findInBatch padd pzero qpt bm test pp 0 bs with _ | i
    · have hppadv : padd pp (offPt padd pzero qpt bs) =
          padd p0 (psmul padd pzero (n + bs) qpt) := by
        rw [hpp, candidate_eq padd pzero qpt hassoc hcomm hid p0 n bs]
      have e1 : (fbpLoop padd pzero qpt bm test bs pp n (fuel + 1)).1 =
          (fbpLoop padd pzero qpt bm test bs
            (padd p0 (psmul padd pzero (n + bs) qpt)) (n + bs) fuel).1 := by
        simp [fbpLoop, hfb, hppadv]
      have e2 : (fbpLoop padd pzero qpt bm test bs pp n (fuel + 1)).2.1 =
          (fbpLoop padd pzero qpt bm test bs
            (padd p0 (psmul padd pzero (n + bs) qpt)) (n + bs) fuel).2.1 := by
        simp [fbpLoop, hfb, hppadv]
      rw [e2] at h
      rw [e1]
      obtain ⟨ih1, ih2, ih3⟩ := ih (n + bs) h
      have hnone := findInBatch_none padd pzero qpt bm test bs 0 pp hfb
      refine ⟨by omega, ih2, fun m hm1 hm2 => ?_⟩
      by_cases hcase : m < n + bs
      · have := hnone (m - n) (by omega) (by omega)
        have hmn : n + (m - n) = m := by omega
        rwa [show padd pp (offPt padd pzero qpt (m - n)) =
            padd p0 (psmul padd pzero m qpt) from by
          rw [hpp, candidate_eq padd pzero qpt hassoc hcomm hid p0 n (m - n), hmn]] at this
      · exact ih3 m (by omega) hm2
    · have e1 : (fbpLoop padd pzero qpt bm test bs pp n (fuel + 1)).1 = n + i := by
        simp [fbpLoop, hfb]
      rw [e1]
      obtain ⟨h1, h2, h3, h4⟩ :=
        findInBatch_some padd pzero qpt bm test bs 0 pp i hfb
      refine ⟨by omega, ?_, fun m hm1 hm2 => ?_⟩
      · rwa [hpp, candidate_eq padd pzero qpt hassoc hcomm hid p0 n i] at h3
      · have := h4 (m - n) (by omega) (by omega)
        have hmn : n + (m - n) = m := by omega
        rwa [hpp, candidate_eq padd pzero qpt hassoc hcomm hid p0 n (m - n),
          hmn] at this

/-- Bookkeeping invariant of the batch loop: the offset advance `n - skip`
versus the number of predicate invocations, with and without a match.  Needs
no assumption on the point operations. -/
theorem fbpLoop_count (bs : ℕ) :
    ∀ (fuel n : ℕ) (pp : Pt),
      n ≤ (fbpLoop padd pzero qpt bm test bs pp n fuel).1 ∧
      ((fbpLoop padd pzero qpt bm test bs pp n fuel).2.1 = true →
        (fbpLoop padd pzero qpt bm test bs pp n fuel).2.2 =
          (fbpLoop padd pzero qpt bm test bs pp n fuel).1 - n + 1) ∧
      ((fbpLoop padd pzero qpt bm test bs pp n fuel).2.1 = false →
        (fbpLoop padd pzero qpt bm test bs pp n fuel).2.2 =
          (fbpLoop padd pzero qpt bm test bs pp n fuel).1 - n) := by
  intro fuel
  induction fuel with
  | zero =>
    intro n pp
    refine ⟨le_refl n, fun h => by simp [fbpLoop] at h, fun _ => by simp [fbpLoop]⟩
  | succ fuel ih =>
    intro n pp
    rcases hfb : findInBatch padd pzero qpt bm test pp 0 bs with _ | i
    · have e1 : (fbpLoop padd pzero qpt bm test bs pp n (fuel + 1)).1 =
          (fbpLoop padd pzero qpt bm test bs
            (padd pp (offPt padd pzero qpt bs)) (n + bs) fuel).1 := by
        simp [fbpLoop, hfb]
      have e2 : (fbpLoop padd pzero qpt bm test bs pp n (fuel + 1)).2.1 =
          (fbpLoop padd pzero qpt bm test bs
            (padd pp (offPt padd pzero qpt bs)) (n + bs) fuel).2.1 := by
        simp [fbpLoop, hfb]
      have e3 : (fbpLoop padd pzero qpt bm test bs pp n (fuel + 1)).2.2 =
          (fbpLoop padd pzero qpt bm test bs
            (padd pp (offPt padd pzero qpt bs)) (n + bs) fuel).2.2 + bs := by
        simp [fbpLoop, hfb]
      rw [e1, e2, e3]
      obtain ⟨ih0, ih1, ih2⟩ :=
        ih (n + bs) (padd pp (offPt padd pzero qpt bs))
      exact ⟨by omega, fun h => by have := ih1 h; omega,
        fun h => by have := ih2 h; omega⟩
    · have hi : i < bs := by
        obtain ⟨-, h2, -, -⟩ :=
          findInBatch_some padd pzero qpt bm test bs 0 pp i hfb
        omega
      have e1 : (fbpLoop padd pzero qpt bm test bs pp n (fuel + 1)).1 = n + i := by
        simp [fbpLoop, hfb]
      have e2 : (fbpLoop padd pzero qpt bm test bs pp n (fuel + 1)).2.1 = true := by
        simp [fbpLoop, hfb]
      have e3 : (fbpLoop padd pzero qpt bm test bs pp n (fuel + 1)).2.2 = i + 1 := by
        simp [fbpLoop, hfb]
      rw [e1, e2, e3]
      exact ⟨by omega, fun _ => by omega, fun h => by simp at h⟩

/-- The batch scan applied to the per-point encodings of the candidate
points, indices carried absolutely, is the idealized `findInBatch`. -/
theorem scanHits_eq_findInBatch :
    ∀ (rem j : ℕ) (pp : Pt),
      scanHits test j
          (((List.range' j rem).map
            fun i => padd pp (offPt padd pzero qpt i)).map bm) =
        findInBatch padd pzero qpt bm test pp j rem := by
  intro rem
  induction rem with
  | zero => intro j pp; rfl
  | succ rem ih =>
    intro j pp
    rw [List.range'_succ]
    simp only [List.map_cons, scanHits, findInBatch]
    by_cases ht : test (bm (padd pp (offPt padd pzero qpt j))) = true
    · simp [ht]
    · simp only [Bool.not_eq_true] at ht
      simp [ht]
      rw [← List.map_map]
      exact ih (j + 1) pp

/-- When the batch encoder agrees with the per-point encoding, the batch
scan of the code is the idealized one. -/
theorem findInBatchB_eq (hbatch : ∀ l, bmBatch l = l.map bm)
    (pp : Pt) (bs : ℕ) :
    findInBatchB padd pzero qpt test bmBatch pp bs =
      findInBatch padd pzero qpt bm test pp 0 bs := by
  unfold findInBatchB
  rw [hbatch, List.range_eq_range']
  exact scanHits_eq_findInBatch padd pzero qpt bm test bs 0 pp

/-- When the batch encoder agrees with the per-point encoding, the two loop
embeddings coincide. -/
theorem fbpLoopB_eq (hbatch : ∀ l, bmBatch l = l.map bm) (bs : ℕ) :
    ∀ (fuel n : ℕ) (pp : Pt),
      fbpLoopB padd pzero qpt test bmBatch bs pp n fuel =
        fbpLoop padd pzero qpt bm test bs pp n fuel := by
  intro fuel
  induction fuel with
  | zero => intro n pp; rfl
  | succ fuel ih =>
    intro n pp
    have he := findInBatchB_eq padd pzero qpt bm test bmBatch hbatch pp bs
    rcases hfb : findInBatch padd pzero qpt bm test pp 0 bs with _ | i
    · simp [fbpLoopB, fbpLoop, he, hfb, ih]
    · simp [fbpLoopB, fbpLoop, he, hfb]

/-- C1 (amended).  If `findBatchPoint(P₀, skip, batchSize, test)` reports a
match at offset `n` and the shared-inversion batch encoding agrees with the
per-point `BytesMontgomery` encoding on candidate batches — which by the C5
theorems holds whenever no scanned candidate is degenerate, in particular
when no candidate is the neutral element; without this hypothesis the
statement is false of the program, see the counterexample — then `n ≥ skip`,
the predicate holds on the Montgomery encoding of `P₀ + n·Q`, and `n` is the
first offset at or after `skip` whose point satisfies the predicate.  The
remaining hypotheses are the group laws the spec assumes of the external
curve library; cancellation is modelled by the fuel bound. -/
theorem findBatchPointB_first_match (p0 : Pt) (skip bs fuel : ℕ)
    (hassoc : ∀ a b c, padd (padd a b) c = padd a (padd b c))
    (hcomm : ∀ a b, padd a b = padd b a)
    (hid : ∀ a, padd a pzero = a)
    (hbatch : ∀ l, bmBatch l = l.map bm)
    (hfound :
      (findBatchPointB padd pzero qpt test bmBatch p0 skip bs fuel).2.1 = true) :
    skip ≤ (findBatchPointB padd pzero qpt test bmBatch p0 skip bs fuel).1 ∧
    test (bm (padd p0 (psmul padd pzero
        ((findBatchPointB padd pzero qpt test bmBatch p0 skip bs fuel).1)
        qpt))) = true ∧
    ∀ m, skip ≤ m →
      m < (findBatchPointB padd pzero qpt test bmBatch p0 skip bs fuel).1 →
      test (bm (padd p0 (psmul padd pzero m qpt))) = false := by
  have he : findBatchPointB padd pzero qpt test bmBatch p0 skip bs fuel =
      findBatchPoint padd pzero qpt bm test p0 skip bs fuel := by
    unfold findBatchPointB findBatchPoint
    exact fbpLoopB_eq padd pzero qpt bm test bmBatch hbatch bs fuel skip
      (padd p0 (psmul padd pzero skip qpt))
  rw [he] at hfound ⊢
  exact fbpLoop_spec padd pzero qpt bm test hassoc hcomm hid p0 bs fuel skip hfound

end SearchProofs

/-- Witness for `findBatchPointB_first_match`: the integers under addition
with `Q = 1`, an always-true predicate, the honest elementwise batch
encoder, `skip = 5`, batch size 1, fuel 1; all hypotheses hold and the loop
reports offset 5. -/
theorem findBatchPointB_first_match_witness :
    5 ≤ (findBatchPointB (fun a b : ℤ => a + b) 0 1 (fun _ => true)
        (fun l => l.map fun z => [z.toNat]) 3 5 1 1).1 ∧
    (fun _ : List ℕ => true) ((fun z : ℤ => [z.toNat]) ((3 : ℤ) +
      psmul (fun a b : ℤ => a + b) 0
        ((findBatchPointB (fun a b : ℤ => a + b) 0 1 (fun _ => true)
          (fun l => l.map fun z => [z.toNat]) 3 5 1 1).1) 1)) = true ∧
    ∀ m, 5 ≤ m →
      m < (findBatchPointB (fun a b : ℤ => a + b) 0 1 (fun _ => true)
          (fun l => l.map fun z => [z.toNat]) 3 5 1 1).1 →
      (fun _ : List ℕ => true) ((fun z : ℤ => [z.toNat])
        ((3 : ℤ) + psmul (fun a b : ℤ => a + b) 0 m 1)) = false :=
  findBatchPointB_first_match (fun a b : ℤ => a + b) 0 1 (fun z => [z.toNat])
    (fun _ => true) (fun l => l.map fun z => [z.toNat]) 3 5 1 1
    (fun a b c => add_assoc a b c) (fun a b => add_comm a b)
    (fun a => add_zero a) (fun l => rfl) (by decide)

/-- Counterexample to C1 as stated: start the concrete loop at `P₀ = -5·Q`
(a point reachable through the sign ambiguity of `parsePublicKey`, see the
comment at `main.go` 137-139) with `skip = 0`, batch size 8, one batch of
fuel and the compiled `testBase64Prefix("AA")` predicate.  The candidate at
local index 5 is the neutral element, whose denominator `T - Y = 0` zeroes
the shared Fermat inversion and turns all eight batch outputs into 0, so the
program reports a match at offset `n = 0` — though the true Montgomery
encoding of `P₀ + 0·Q` fails the predicate; the genuine first match is
offset 5. -/
theorem findBatchPoint_reports_false_match :
    onCurve (p3Neg (p3smulP 40 basePointP3)) ∧
    findBatchPointP3 testAA (p3Neg (p3smulP 40 basePointP3)) 0 8 1 =
      (0, true) ∧
    testAA (feBytes (bytesMontgomery feInvert
      (p3Add (p3Neg (p3smulP 40 basePointP3))
        (p3smulP 0 pointOffsetP3)))) = false ∧
    testAA (feBytes (bytesMontgomery feInvert
      (p3Add (p3Neg (p3smulP 40 basePointP3))
        (p3smulP 5 pointOffsetP3)))) = true := by
  exact ⟨⟨by decide, by decide, by decide⟩, by decide, by decide, by decide⟩

/-- Counterexample to C10 as stated: with an always-true predicate, batch
size 1 and `skip = 0`, the worker finds offset `n = 0` after one predicate
invocation, so the amount `n - skip = 0` it adds to the attempts counter is
one less than the number of predicate invocations. -/
theorem attempts_count_counterexample :
    ¬ ((findBatchPoint (fun _ _ => ()) () () (fun _ => ([] : List ℕ))
          (fun _ => true) () 0 1 1).1 - 0 =
        (findBatchPoint (fun _ _ => ()) () () (fun _ => ([] : List ℕ))
          (fun _ => true) () 0 1 1).2.2) := by
  decide

/-- C10 (amended).  The amount `n - skip` a worker adds to the shared
attempts counter equals the number of prefix-predicate invocations it
performed when it was cancelled, and that number minus one (the final,
successful test is not counted) when it found a match. -/
theorem attempts_count {Pt : Type} (padd : Pt → Pt → Pt) (pzero qpt : Pt)
    (bm : Pt → List ℕ) (test : List ℕ → Bool) (p0 : Pt) (skip bs fuel : ℕ) :
    ((findBatchPoint padd pzero qpt bm test p0 skip bs fuel).2.1 = true →
      (findBatchPoint padd pzero qpt bm test p0 skip bs fuel).1 - skip =
        (findBatchPoint padd pzero qpt bm test p0 skip bs fuel).2.2 - 1) ∧
    ((findBatchPoint padd pzero qpt bm test p0 skip bs fuel).2.1 = false →
      (findBatchPoint padd pzero qpt bm test p0 skip bs fuel).1 - skip =
        (findBatchPoint padd pzero qpt bm test p0 skip bs fuel).2.2) := by
  simp only [findBatchPoint]
  obtain ⟨h0, h1, h2⟩ := fbpLoop_count padd pzero qpt bm test bs fuel skip
    (padd p0 (psmul padd pzero skip qpt))
  exact ⟨fun h => by have := h1 h; omega, fun h => by have := h2 h; omega⟩

/-- Witness for `attempts_count`, applied at a concrete instance (both the
found and the cancelled branch of the conclusion are implications, so the
inner hypotheses are discharged by the instance itself). -/
theorem attempts_count_witness :
    ((findBatchPoint (fun _ _ => ()) () () (fun _ => ([] : List ℕ))
          (fun _ => true) () 0 1 1).2.1 = true →
      (findBatchPoint (fun _ _ => ()) () () (fun _ => ([] : List ℕ))
          (fun _ => true) () 0 1 1).1 - 0 =
        (findBatchPoint (fun _ _ => ()) () () (fun _ => ([] : List ℕ))
          (fun _ => true) () 0 1 1).2.2 - 1) ∧
    ((findBatchPoint (fun _ _ => ()) () () (fun _ => ([] : List ℕ))
          (fun _ => true) () 0 1 1).2.1 = false →
      (findBatchPoint (fun _ _ => ()) () () (fun _ => ([] : List ℕ))
          (fun _ => true) () 0 1 1).1 - 0 =
        (findBatchPoint (fun _ _ => ()) () () (fun _ => ([] : List ℕ))
          (fun _ => true) () 0 1 1).2.2) :=
  attempts_count (fun _ _ => ()) () () (fun _ => ([] : List ℕ))
    (fun _ => true) () 0 1 1

/-! ## Byte-level groundwork for the private-key serializer (C7, C8) -/

theorem toBytesLE_getD (w : ℕ) :
    ∀ (v i : ℕ), i < w → (toBytesLE w v).getD i 0 = v / 256 ^ i % 256 := by
  induction w with
  | zero => intro v i h; omega
  | succ w ih =>
    intro v i h
    cases i with
    | zero => simp [toBytesLE]
    | succ i =>
      simp only [toBytesLE, List.getD_cons_succ]
      rw [ih (v / 256) i (by omega), Nat.div_div_eq_div_mul]
      ring_nf

theorem fromBytesLE_lt (l : List ℕ) (h : ∀ b ∈ l, b < 256) :
    fromBytesLE l < 256 ^ l.length := by
  induction l with
  | nil => simp [fromBytesLE_nil]
  | cons b t ih =>
    have hb : b < 256 := h b (List.mem_cons_self ..)
    have ht := ih fun x hx => h x (List.mem_cons_of_mem _ hx)
    have h2 : fromBytesLE t + 1 ≤ 256 ^ t.length := ht
    have h3 : 256 * (fromBytesLE t + 1) ≤ 256 * 256 ^ t.length :=
      Nat.mul_le_mul_left 256 h2
    simp only [fromBytesLE_cons, List.length_cons, pow_succ]
    omega

theorem fromBytesLE_set_add (l : List ℕ) :
    ∀ (i dlt : ℕ), i < l.length →
      fromBytesLE (l.set i (l.getD i 0 + dlt)) = fromBytesLE l + dlt * 256 ^ i := by
  induction l with
  | nil => intro i dlt h; simp at h
  | cons b t ih =>
    intro i dlt h
    cases i with
    | zero => simp [fromBytesLE_cons]; ring
    | succ i =>
      simp only [List.set_cons_succ, List.getD_cons_succ, fromBytesLE_cons]
      rw [ih i dlt (by simpa using h)]
      ring

theorem set_getD_self (l : List ℕ) : ∀ i, l.set i (l.getD i 0) = l := by
  induction l with
  | nil => intro i; rfl
  | cons b t ih =>
    intro i
    cases i with
    | zero => rfl
    | succ i => simp only [List.set_cons_succ, List.getD_cons_succ, ih i]

theorem getD_set_eq (l : List ℕ) (i x d : ℕ) (h : i < l.length) :
    (l.set i x).getD i d = x := by
  simp [List.getD_eq_getElem?_getD, List.getElem?_set_self, h]

theorem getD_set_ne (l : List ℕ) (i j x d : ℕ) (h : i ≠ j) :
    (l.set i x).getD j d = l.getD j d := by
  simp [List.getD_eq_getElem?_getD, List.getElem?_set_ne h]

theorem fromBytesLE_head_mod (l : List ℕ) (h : l ≠ []) :
    fromBytesLE l % 8 = l.getD 0 0 % 8 := by
  cases l with
  | nil => exact absurd rfl h
  | cons b t => simp only [fromBytesLE_cons, List.getD_cons_zero]; omega

theorem land7_mod (x : ℕ) (hx : x < 256) : x &&& 7 = x % 8 := by
  revert hx
  revert x
  decide

theorem land248_id (x : ℕ) (hx : x < 256) (h8 : x % 8 = 0) : x &&& 248 = x := by
  revert h8
  revert hx
  revert x
  decide

theorem land248_mod (x : ℕ) (hx : x < 256) : (x &&& 248) % 8 = 0 := by
  revert hx
  revert x
  decide

theorem land248_lt (x : ℕ) (hx : x < 256) : x &&& 248 < 256 := by
  revert hx
  revert x
  decide

theorem byte31_clamp_id (x : ℕ) (h1 : 64 ≤ x) (h2 : x < 128) :
    (x &&& 63) ||| 64 = x := by
  revert h1
  revert h2
  revert x
  decide

theorem byte31_clamp_range (x : ℕ) (hx : x < 256) :
    64 ≤ ((x &&& 63) ||| 64) ∧ ((x &&& 63) ||| 64) < 128 := by
  revert hx
  revert x
  decide

theorem getD_mem (l : List ℕ) (i d : ℕ) (h : i < l.length) : l.getD i d ∈ l := by
  rw [List.getD_eq_getElem l d h]
  exact List.getElem_mem h

theorem aliasTable_le (i : ℕ) : aliasTable.getD i 0 ≤ 7 := by
  rcases Nat.lt_or_ge i 8 with h | h
  · interval_cases i <;> decide
  · rw [List.getD_eq_default]
    · decide
    · simpa [aliasTable] using h

theorem aliasTable_mod (i : ℕ) (h : i < 8) :
    (i + aliasTable.getD i 0 * 5) % 8 = 0 := by
  revert h
  revert i
  decide

/-- Characterization of `scalarToKeyBytes`: when the alias index is at least
4 and the alias scalar does not wrap modulo `l`, the output is exactly the
32-byte little-endian encoding of `s.val + k·l`. -/
theorem scalarToKeyBytes_eq (s : ZMod lconst)
    (hk4 : 4 ≤ aliasTable.getD (s.val % 8) 0)
    (hlt : deltaSmall * aliasTable.getD (s.val % 8) 0 + s.val < lconst) :
    scalarToKeyBytes s =
      some (toBytesLE 32 (s.val + aliasTable.getD (s.val % 8) 0 * lconst)) := by
  have hsv : s.val < lconst := ZMod.val_lt s
  have hlow : (toBytesLE 32 s.val).getD 0 0 &&& 7 = s.val % 8 := by
    rw [toBytesLE_getD 32 s.val 0 (by omega)]
    simp only [pow_zero, Nat.div_one]
    rw [land7_mod (s.val % 256) (Nat.mod_lt _ (by omega)),
      Nat.mod_mod_of_dvd s.val (by norm_num)]
  set k := aliasTable.getD (s.val % 8) 0 with hkdef
  have hk7 : k ≤ 7 := aliasTable_le (s.val % 8)
  have hdl : deltaSmall < lconst := by decide
  have hdk : deltaSmall * k < lconst := by
    calc deltaSmall * k ≤ deltaSmall * 7 := Nat.mul_le_mul_left _ hk7
      _ < lconst := by decide
  have hkl : k < lconst := by
    have : (7 : ℕ) < lconst := by decide
    omega
  have hvalab : ((deltaSmall : ZMod lconst) * (k : ZMod lconst) + s).val =
      deltaSmall * k + s.val := by
    rw [ZMod.val_add, ZMod.val_mul, ZMod.val_cast_of_lt hdl,
      ZMod.val_cast_of_lt hkl, Nat.mod_eq_of_lt hdk, Nat.mod_eq_of_lt hlt]
  have hlp : lconst < 2 ^ 253 := by decide
  set A := deltaSmall * k + s.val with hAdef
  have hA : A < 2 ^ 253 := by omega
  have hAhi : A / 256 ^ 31 < 32 := by
    have h1 : (256 : ℕ) ^ 31 = 2 ^ 248 := by norm_num
    rw [h1, Nat.div_lt_iff_lt_mul (by positivity)]
    calc A < 2 ^ 253 := hA
      _ = 32 * 2 ^ 248 := by norm_num
  have hgd31 : (toBytesLE 32 A).getD 31 0 = A / 256 ^ 31 := by
    rw [toBytesLE_getD 32 A 31 (by omega), Nat.mod_eq_of_lt (by omega)]
  have hshift : k <<< 4 = 16 * k := by
    rw [Nat.shiftLeft_eq]
    ring
  have hnowrap : ((toBytesLE 32 A).getD 31 0 + k <<< 4) % 256 =
      (toBytesLE 32 A).getD 31 0 + 16 * k := by
    rw [hshift, Nat.mod_eq_of_lt]
    rw [hgd31]
    omega
  simp only [scalarToKeyBytes, hlow, ← hkdef]
  rw [if_neg (by omega)]
  rw [hvalab]
  congr 1
  rw [hnowrap]
  have hset : fromBytesLE ((toBytesLE 32 A).set 31
      ((toBytesLE 32 A).getD 31 0 + 16 * k)) = A + 16 * k * 256 ^ 31 := by
    have := fromBytesLE_set_add (toBytesLE 32 A) 31 (16 * k)
      (by rw [toBytesLE_length]; omega)
    rw [this, fromBytesLE_toBytesLE 32 A (by
      calc A < 2 ^ 253 := hA
        _ < 256 ^ 32 := by norm_num)]
  have hval2 : A + 16 * k * 256 ^ 31 = s.val + k * lconst := by
    have h1 : (16 : ℕ) * 256 ^ 31 = 2 ^ 252 := by norm_num
    have h2 : lconst = 2 ^ 252 + deltaSmall := by decide
    calc A + 16 * k * 256 ^ 31 = A + k * (16 * 256 ^ 31) := by ring
      _ = deltaSmall * k + s.val + k * 2 ^ 252 := by rw [h1, hAdef]
      _ = s.val + k * (2 ^ 252 + deltaSmall) := by ring
      _ = s.val + k * lconst := by rw [← h2]
  have hmemset : ∀ b ∈ (toBytesLE 32 A).set 31
      ((toBytesLE 32 A).getD 31 0 + 16 * k), b < 256 := by
    intro b hb
    rcases List.mem_or_eq_of_mem_set hb with h | h
    · exact toBytesLE_mem_lt 32 A b h
    · rw [h, hgd31]
      omega
  have hlenset : ((toBytesLE 32 A).set 31
      ((toBytesLE 32 A).getD 31 0 + 16 * k)).length = 32 := by
    rw [List.length_set, toBytesLE_length]
  calc (toBytesLE 32 A).set 31 ((toBytesLE 32 A).getD 31 0 + 16 * k)
      = toBytesLE 32 (fromBytesLE ((toBytesLE 32 A).set 31
          ((toBytesLE 32 A).getD 31 0 + 16 * k))) := by
        have h := toBytesLE_fromBytesLE ((toBytesLE 32 A).set 31
          ((toBytesLE 32 A).getD 31 0 + 16 * k)) hmemset
        rw [hlenset] at h
        exact h.symm
    _ = toBytesLE 32 (s.val + k * lconst) := by rw [hset, hval2]

/-- RFC 7748 clamping is the identity on the 32-byte encoding of a value that
is divisible by 8 and lies in `[2^254, 2^255)`; `SetBytesWithClamping` then
returns the value reduced modulo `l`. -/
theorem setBytesWithClamping_eq (a : ℕ) (h8 : a % 8 = 0) (hlo : 2 ^ 254 ≤ a)
    (hhi : a < 2 ^ 255) :
    setBytesWithClamping (toBytesLE 32 a) = ((a : ℕ) : ZMod lconst) := by
  have hgd0 : (toBytesLE 32 a).getD 0 0 = a % 256 := by
    rw [toBytesLE_getD 32 a 0 (by omega)]
    simp
  have hgd31 : (toBytesLE 32 a).getD 31 0 = a / 2 ^ 248 := by
    rw [toBytesLE_getD 32 a 31 (by omega)]
    have h1 : (256 : ℕ) ^ 31 = 2 ^ 248 := by norm_num
    rw [h1, Nat.mod_eq_of_lt]
    rw [Nat.div_lt_iff_lt_mul (by positivity)]
    calc a < 2 ^ 255 := hhi
      _ < 256 * 2 ^ 248 := by norm_num
  have hb31range : 64 ≤ a / 2 ^ 248 ∧ a / 2 ^ 248 < 128 := by
    constructor
    · rw [Nat.le_div_iff_mul_le (by positivity)]
      calc (64 : ℕ) * 2 ^ 248 = 2 ^ 254 := by norm_num
        _ ≤ a := hlo
    · rw [Nat.div_lt_iff_lt_mul (by positivity)]
      calc a < 2 ^ 255 := hhi
        _ = 128 * 2 ^ 248 := by norm_num
  have hclamp : clampBytes (toBytesLE 32 a) = toBytesLE 32 a := by
    unfold clampBytes
    have ha8 : a % 256 % 8 = 0 := by
      rw [Nat.mod_mod_of_dvd a (by norm_num : (8 : ℕ) ∣ 256)]
      exact h8
    rw [hgd0, hgd31, land248_id (a % 256) (Nat.mod_lt _ (by omega)) ha8,
      byte31_clamp_id (a / 2 ^ 248) hb31range.1 hb31range.2]
    rw [← hgd0, ← hgd31, set_getD_self, set_getD_self]
  unfold setBytesWithClamping
  rw [hclamp, fromBytesLE_toBytesLE 32 a (by
    calc a < 2 ^ 255 := hhi
      _ < 256 ^ 32 := by norm_num)]

/-! ## C7: round-trip of the private-key serializer through clamping -/

/-- C7 (amended).  For a scalar `s` whose alias index `k` is at least 4 (the
non-panicking case) and whose alias value neither wraps modulo `l`
(`δ·k + s.val < l`) nor overflows bit 254 (`s.val + k·l < 2^255`), clamping
the bytes printed by `scalarToKeyBytes` per RFC 7748 recovers exactly `s`
modulo the group order, so the printed private key derives the public key
`s·B`. -/
theorem scalarToKeyBytes_roundtrip (s : ZMod lconst)
    (hk4 : 4 ≤ aliasTable.getD (s.val % 8) 0)
    (hlt : deltaSmall * aliasTable.getD (s.val % 8) 0 + s.val < lconst)
    (hhi : s.val + aliasTable.getD (s.val % 8) 0 * lconst < 2 ^ 255) :
    (scalarToKeyBytes s).isSome = true ∧
    setBytesWithClamping ((scalarToKeyBytes s).getD []) = s := by
  set k := aliasTable.getD (s.val % 8) 0 with hkdef
  have hk7 : k ≤ 7 := aliasTable_le (s.val % 8)
  rw [scalarToKeyBytes_eq s hk4 hlt]
  set A := s.val + k * lconst with hAdef
  have hl8 : lconst % 8 = 5 := by decide
  have htab : (s.val % 8 + k * 5) % 8 = 0 := aliasTable_mod (s.val % 8) (by omega)
  have hA8 : A % 8 = 0 := by
    interval_cases k <;> omega
  have h4l : 2 ^ 254 ≤ 4 * lconst := by decide
  have hAlo : 2 ^ 254 ≤ A := by
    have : 4 * lconst ≤ k * lconst := Nat.mul_le_mul_right lconst hk4
    omega
  have hres := setBytesWithClamping_eq A hA8 hAlo hhi
  refine ⟨rfl, ?_⟩
  simp only [Option.getD_some]
  rw [hres, hAdef]
  push_cast
  rw [ZMod.natCast_self]
  simp [ZMod.natCast_rightInverse s]

/-- Witness for `scalarToKeyBytes_roundtrip` at the scalar `s = 2` (alias
index 6). -/
theorem scalarToKeyBytes_roundtrip_witness :
    (scalarToKeyBytes (2 : ZMod lconst)).isSome = true ∧
    setBytesWithClamping ((scalarToKeyBytes (2 : ZMod lconst)).getD []) =
      (2 : ZMod lconst) :=
  scalarToKeyBytes_roundtrip (2 : ZMod lconst) (by decide) (by decide) (by decide)

/-- Counterexample to C7 as stated: at `s = -1 = l - 1` the serializer does
not panic (alias index 4), but the alias value wraps modulo `l` when the
`MultiplyAdd` reduces, so the low three bits of the printed bytes are not
zero and clamping changes the scalar: the round-trip yields `s - 3`, not
`s`. -/
theorem scalarToKeyBytes_not_always_roundtrip :
    (scalarToKeyBytes (-1 : ZMod lconst)).isSome = true ∧
    setBytesWithClamping ((scalarToKeyBytes (-1 : ZMod lconst)).getD []) ≠
      (-1 : ZMod lconst) := by
  constructor
  · decide
  · decide

/-! ## C8: recovery with offset zero -/

/-- Shared core of the offset-zero recovery: under the no-panic and no-wrap
conditions on the clamped seed value, `scalarToKeyBytes` returns exactly the
clamped seed bytes. -/
theorem scalarToKeyBytes_clamped_seed (seed : List ℕ) (hlen : seed.length = 32)
    (hbytes : ∀ b ∈ seed, b < 256)
    (hk4 : 4 ≤ fromBytesLE (clampBytes seed) / lconst)
    (hnowrap : fromBytesLE (clampBytes seed) <
      lconst + fromBytesLE (clampBytes seed) / lconst * 2 ^ 252) :
    scalarToKeyBytes (setBytesWithClamping seed) = some (clampBytes seed) := by
  set C := fromBytesLE (clampBytes seed) with hCdef
  set k0 := C / lconst with hk0def
  have hlen2 : (clampBytes seed).length = 32 := by
    simp [clampBytes, hlen]
  have hmem : ∀ b ∈ clampBytes seed, b < 256 := by
    intro b hb
    unfold clampBytes at hb
    rcases List.mem_or_eq_of_mem_set hb with hb1 | hb1
    · rcases List.mem_or_eq_of_mem_set hb1 with hb2 | hb2
      · exact hbytes b hb2
      · rw [hb2]
        exact land248_lt _ (hbytes _ (getD_mem _ _ _ (by omega)))
    · rw [hb1]
      exact (byte31_clamp_range _ (hbytes _ (getD_mem _ _ _ (by omega)))).2.trans
        (by omega)
  have hround : toBytesLE 32 C = clampBytes seed := by
    have h := toBytesLE_fromBytesLE (clampBytes seed) hmem
    rw [hlen2] at h
    exact h
  have hgd0 : (clampBytes seed).getD 0 0 = seed.getD 0 0 &&& 248 := by
    unfold clampBytes
    rw [getD_set_ne _ 31 0 _ _ (by omega), getD_set_eq _ 0 _ _ (by omega)]
  have hgd31 : (clampBytes seed).getD 31 0 = (seed.getD 31 0 &&& 63) ||| 64 := by
    unfold clampBytes
    rw [getD_set_eq _ 31 _ _ (by simp [hlen])]
  have hC8 : C % 8 = 0 := by
    rw [hCdef, fromBytesLE_head_mod (clampBytes seed)
      (by intro hnil; rw [hnil] at hlen2; simp at hlen2), hgd0]
    exact land248_mod _ (hbytes _ (getD_mem _ _ _ (by omega)))
  have hClt : C < 256 ^ 32 := by
    have := fromBytesLE_lt (clampBytes seed) hmem
    rwa [hlen2] at this
  have hCd31 : C / 2 ^ 248 = (seed.getD 31 0 &&& 63) ||| 64 := by
    have h := toBytesLE_getD 32 C 31 (by omega)
    rw [hround, hgd31] at h
    have h256 : (256 : ℕ) ^ 31 = 2 ^ 248 := by norm_num
    rw [h256] at h
    have hlt2 : C / 2 ^ 248 < 256 := by
      rw [Nat.div_lt_iff_lt_mul (by positivity)]
      calc C < 256 ^ 32 := hClt
        _ = 256 * 2 ^ 248 := by norm_num
    rw [← Nat.mod_eq_of_lt hlt2]
    exact h.symm
  have hb31r := byte31_clamp_range (seed.getD 31 0)
    (hbytes _ (getD_mem _ _ _ (by omega)))
  have hClo : 2 ^ 254 ≤ C := by
    have h1 : 64 ≤ C / 2 ^ 248 := by omega
    rw [Nat.le_div_iff_mul_le (by positivity)] at h1
    calc (2 : ℕ) ^ 254 = 64 * 2 ^ 248 := by norm_num
      _ ≤ C := h1
  have hChi : C < 2 ^ 255 := by
    have h1 : C / 2 ^ 248 < 128 := by omega
    rw [Nat.div_lt_iff_lt_mul (by positivity)] at h1
    calc C < 128 * 2 ^ 248 := h1
      _ = 2 ^ 255 := by norm_num
  have h8l : 2 ^ 255 < 8 * lconst := by decide
  have hk07 : k0 ≤ 7 := by
    rw [hk0def]
    by_contra hcon
    push_neg at hcon
    have : 8 ≤ C / lconst := hcon
    rw [Nat.le_div_iff_mul_le (by decide)] at this
    omega
  have hsub : k0 * lconst ≤ C := by
    rw [hk0def]
    exact Nat.div_mul_le_self C lconst
  have hs : setBytesWithClamping seed = ((C : ℕ) : ZMod lconst) := by
    unfold setBytesWithClamping
    rw [← hCdef]
  have hsval : (setBytesWithClamping seed).val = C - k0 * lconst := by
    rw [hs, ZMod.val_natCast, hk0def]
    have h := Nat.div_add_mod C lconst
    rw [Nat.mul_comm] at h
    omega
  have hl8 : lconst % 8 = 5 := by decide
  have hldef : lconst = 2 ^ 252 + deltaSmall := by decide
  have hmod : (setBytesWithClamping seed).val % 8 = 3 * k0 % 8 := by
    rw [hsval]
    clear_value k0
    interval_cases k0 <;> omega
  have hktab : aliasTable.getD ((setBytesWithClamping seed).val % 8) 0 = k0 := by
    rw [hmod]
    clear_value k0
    interval_cases k0 <;> decide
  have happ := scalarToKeyBytes_eq (setBytesWithClamping seed)
    (by rw [hktab]; exact hk4)
    (by
      rw [hktab, hsval]
      clear_value k0
      interval_cases k0 <;> omega)
  rw [happ, hktab, hsval]
  have hfin : C - k0 * lconst + k0 * lconst = C := by omega
  rw [hfin, hround]

/-- C8 (amended).  For seeds whose clamped value `C` yields an alias index
`k₀ = C / l` of at least 4 and does not wrap (`C < l + k₀·2^252`), the
recovery operation invoked with offset 0 returns the RFC 7748 clamping of the
input private key bytes, on both the `+` and the `-` candidate. -/
theorem cmdAdd_offset_zero (seed : List ℕ) (hlen : seed.length = 32)
    (hbytes : ∀ b ∈ seed, b < 256)
    (hk4 : 4 ≤ fromBytesLE (clampBytes seed) / lconst)
    (hnowrap : fromBytesLE (clampBytes seed) <
      lconst + fromBytesLE (clampBytes seed) / lconst * 2 ^ 252) :
    cmdAddKeyPlus seed 0 = some (clampBytes seed) ∧
    cmdAddKeyMinus seed 0 = some (clampBytes seed) := by
  have h := scalarToKeyBytes_clamped_seed seed hlen hbytes hk4 hnowrap
  constructor
  · unfold cmdAddKeyPlus
    simpa using h
  · unfold cmdAddKeyMinus
    simpa using h

/-- Witness for `cmdAdd_offset_zero`: the seed encoding `5·2^252`, which is
clamp-invariant with alias index 4. -/
theorem cmdAdd_offset_zero_witness :
    cmdAddKeyPlus (toBytesLE 32 (5 * 2 ^ 252)) 0 =
        some (clampBytes (toBytesLE 32 (5 * 2 ^ 252))) ∧
    cmdAddKeyMinus (toBytesLE 32 (5 * 2 ^ 252)) 0 =
        some (clampBytes (toBytesLE 32 (5 * 2 ^ 252))) :=
  cmdAdd_offset_zero (toBytesLE 32 (5 * 2 ^ 252)) (by decide)
    (by decide) (by decide) (by decide)

/-- Counterexample to C8 as stated: the seed encoding `2^254` is
clamp-invariant, but its clamped value lies below `4·l`, so the alias index
is 3 and `scalarToKeyBytes` panics instead of returning the seed: recovery
with offset 0 does not return the clamped seed for every seed. -/
theorem cmdAdd_offset_zero_panics :
    clampBytes (toBytesLE 32 (2 ^ 254)) = toBytesLE 32 (2 ^ 254) ∧
    cmdAddKeyPlus (toBytesLE 32 (2 ^ 254)) 0 = none := by
  constructor
  · decide
  · decide

/-! ## C9: error behaviour of parsePublicKey -/

/-- C9 (amended).  `parsePublicKey` fails exactly when the input is not 32
bytes long or the Edwards decoder rejects, i.e. `x² = (y²-1)/(dy²+1)` has no
root for the computed `y = (u-1)/(u+1)`.  A decoded u-coordinate equal to
`-1` is not an error: the zero denominator goes through the Fermat
`Invert(0) = 0`, giving `y = 0`, which decodes to a valid point (see the
counterexample below). -/
theorem parsePublicKey_error_iff (b : List ℕ) :
    parsePublicKey b = none ↔
      (b.length ≠ 32 ∨
        (sqrtRatioMod
          ((feFromBytes b - 1) * feInvert (feFromBytes b + 1) *
              ((feFromBytes b - 1) * feInvert (feFromBytes b + 1)) - 1)
          (dconst * ((feFromBytes b - 1) * feInvert (feFromBytes b + 1) *
              ((feFromBytes b - 1) * feInvert (feFromBytes b + 1))) + 1)).2
          = false) := by
  by_cases hlen : b.length = 32
  · set u := feFromBytes b with hu
    set y := (u - 1) * feInvert (u + 1) with hy
    have hplt : pcurve < 2 ^ 255 := by decide
    have hv255 : y.val < 2 ^ 255 := lt_trans (ZMod.val_lt y) hplt
    have hvb : y.val < 256 ^ 32 := by
      calc y.val < 2 ^ 255 := hv255
        _ < 256 ^ 32 := by norm_num
    have hyv : ((fromBytesLE (feBytes y) % 2 ^ 255 : ℕ) : ZMod pcurve) = y := by
      unfold feBytes
      rw [fromBytesLE_toBytesLE 32 y.val hvb, Nat.mod_eq_of_lt hv255]
      exact ZMod.natCast_rightInverse y
    have hfb32 : (feBytes y).length = 32 := toBytesLE_length 32 y.val
    have hstep : parsePublicKey b = pointSetBytes (feBytes y) := by
      unfold parsePublicKey
      rw [if_neg (by simpa using hlen)]
    rw [hstep]
    unfold pointSetBytes
    rw [if_neg (by simpa using hfb32), hyv]
    by_cases hsr : (sqrtRatioMod (y * y - 1) (dconst * (y * y) + 1)).2 = false
    · simp only [hsr, if_pos rfl]
      simp [hlen, hsr]
    · have hsr2 : (sqrtRatioMod (y * y - 1) (dconst * (y * y) + 1)).2 = true := by
        simpa using hsr
      simp only [hsr2]
      simp [hlen, hsr2]
  · constructor
    · intro _
      exact Or.inl hlen
    · intro _
      unfold parsePublicKey
      rw [if_pos hlen]

/-- Counterexample to C9 as stated: the 32-byte encoding of `p - 1` decodes
to the Montgomery u-coordinate `u = -1`, yet `parsePublicKey` succeeds (the
zero denominator `u + 1` passes through `Invert(0) = 0`, producing `y = 0`,
which is the valid order-4 point), instead of returning the error the claim
requires. -/
theorem parsePublicKey_accepts_minus_one :
    feFromBytes (toBytesLE 32 (pcurve - 1)) = (-1 : ZMod pcurve) ∧
    (toBytesLE 32 (pcurve - 1)).length = 32 ∧
    parsePublicKey (toBytesLE 32 (pcurve - 1)) ≠ none := by
  refine ⟨by decide, by decide, by decide⟩

/-! ## C3 groundwork: fixed-width big-endian digit strings -/

theorem digitsBE_length (b : ℕ) : ∀ (w v : ℕ), (digitsBE b w v).length = w := by
  intro w
  induction w with
  | zero => intro v; rfl
  | succ w ih => intro v; simp [digitsBE, ih]

theorem digitsBE_mem_lt (b : ℕ) (hb : 0 < b) :
    ∀ (w v : ℕ), ∀ d ∈ digitsBE b w v, d < b := by
  intro w
  induction w with
  | zero => intro v d hd; simp [digitsBE] at hd
  | succ w ih =>
    intro v d hd
    simp only [digitsBE, List.mem_cons] at hd
    rcases hd with h | h
    · subst h; exact Nat.mod_lt _ hb
    · exact ih v d h

theorem valDigits_acc (b : ℕ) :
    ∀ (l : List ℕ) (acc : ℕ),
      l.foldl (fun a d => a * b + d) acc = acc * b ^ l.length + valDigits b l := by
  intro l
  induction l with
  | nil => intro acc; simp [valDigits]
  | cons d t ih =>
    intro acc
    show t.foldl (fun a d => a * b + d) (acc * b + d) = _
    rw [ih (acc * b + d)]
    have h2 : valDigits b (d :: t) = t.foldl (fun a d => a * b + d) (0 * b + d) := rfl
    rw [h2, ih (0 * b + d)]
    simp only [List.length_cons, pow_succ]
    ring

theorem valDigits_cons (b d : ℕ) (t : List ℕ) :
    valDigits b (d :: t) = d * b ^ t.length + valDigits b t := by
  have h : valDigits b (d :: t) = t.foldl (fun a d => a * b + d) (0 * b + d) := rfl
  rw [h, valDigits_acc b t (0 * b + d)]
  ring_nf

theorem valDigits_lt (b : ℕ) (hb : 0 < b) :
    ∀ (l : List ℕ), (∀ d ∈ l, d < b) → valDigits b l < b ^ l.length := by
  intro l
  induction l with
  | nil => intro _; simp [valDigits]
  | cons d t ih =>
    intro h
    have hd : d < b := h d (List.mem_cons_self ..)
    have ht := ih fun x hx => h x (List.mem_cons_of_mem _ hx)
    rw [valDigits_cons]
    calc d * b ^ t.length + valDigits b t
        < d * b ^ t.length + b ^ t.length := by omega
      _ = (d + 1) * b ^ t.length := by ring
      _ ≤ b * b ^ t.length := Nat.mul_le_mul_right _ (by omega)
      _ = b ^ (d :: t).length := by rw [List.length_cons, pow_succ]; ring

theorem valDigits_digitsBE (b : ℕ) (hb : 0 < b) :
    ∀ (w v : ℕ), valDigits b (digitsBE b w v) = v % b ^ w := by
  intro w
  induction w with
  | zero => intro v; simp [digitsBE, valDigits, Nat.mod_one]
  | succ w ih =>
    intro v
    show valDigits b (v / b ^ w % b :: digitsBE b w v) = _
    rw [valDigits_cons, digitsBE_length, ih v, pow_succ, Nat.mod_mul]
    ring

theorem digitsBE_mod (b : ℕ) (hb : 0 < b) :
    ∀ (w v : ℕ), digitsBE b w v = digitsBE b w (v % b ^ w) := by
  intro w
  induction w with
  | zero => intro v; rfl
  | succ w ih =>
    intro v
    show v / b ^ w % b :: digitsBE b w v =
      v % b ^ (w + 1) / b ^ w % b :: digitsBE b w (v % b ^ (w + 1))
    have hhead : v % b ^ (w + 1) / b ^ w % b = v / b ^ w % b := by
      rw [pow_succ, Nat.mod_mul_right_div_self,
        Nat.mod_mod_of_dvd _ (dvd_refl b)]
    have htail : digitsBE b w (v % b ^ (w + 1)) = digitsBE b w v := by
      rw [ih (v % b ^ (w + 1)),
        Nat.mod_mod_of_dvd _ (pow_dvd_pow b (Nat.le_succ w)), ← ih v]
    rw [hhead, htail]

theorem digitsBE_valDigits (b : ℕ) (hb : 0 < b) :
    ∀ (l : List ℕ), (∀ d ∈ l, d < b) →
      digitsBE b l.length (valDigits b l) = l := by
  intro l
  induction l with
  | nil => intro _; rfl
  | cons d t ih =>
    intro h
    have hd : d < b := h d (List.mem_cons_self ..)
    have htb : ∀ x ∈ t, x < b := fun x hx => h x (List.mem_cons_of_mem _ hx)
    have htlt : valDigits b t < b ^ t.length := valDigits_lt b hb t htb
    have hv : valDigits b (d :: t) = d * b ^ t.length + valDigits b t :=
      valDigits_cons b d t
    show digitsBE b (t.length + 1) (valDigits b (d :: t)) = d :: t
    have hhead : valDigits b (d :: t) / b ^ t.length % b = d := by
      rw [hv, Nat.add_comm, Nat.mul_comm d]
      rw [Nat.add_mul_div_left _ _ (pow_pos hb _), Nat.div_eq_of_lt htlt,
        Nat.zero_add]
      exact Nat.mod_eq_of_lt hd
    have htail : digitsBE b t.length (valDigits b (d :: t)) = t := by
      rw [digitsBE_mod b hb t.length, hv]
      have hmm : (d * b ^ t.length + valDigits b t) % b ^ t.length =
          valDigits b t := by
        rw [Nat.mul_comm, Nat.mul_add_mod]
        exact Nat.mod_eq_of_lt htlt
      rw [hmm]
      exact ih htb
    show valDigits b (d :: t) / b ^ t.length % b ::
      digitsBE b t.length (valDigits b (d :: t)) = d :: t
    rw [hhead, htail]

theorem digitsBE_take (b : ℕ) :
    ∀ (w s v : ℕ), s ≤ w →
      (digitsBE b w v).take s = digitsBE b s (v / b ^ (w - s)) := by
  intro w
  induction w with
  | zero =>
    intro s v hs
    interval_cases s
    rfl
  | succ w ih =>
    intro s v hs
    cases s with
    | zero => rfl
    | succ s =>
      have hsw : s ≤ w := by omega
      show v / b ^ w % b :: (digitsBE b w v).take s = _
      rw [ih s v hsw]
      show _ = v / b ^ (w + 1 - (s + 1)) / b ^ s % b ::
        digitsBE b s (v / b ^ (w + 1 - (s + 1)))
      have he : w + 1 - (s + 1) = w - s := by omega
      have hd : v / b ^ (w - s) / b ^ s = v / b ^ w := by
        rw [Nat.div_div_eq_div_mul, ← pow_add]
        congr 2
        omega
      rw [he, hd]

theorem digitsBE_getD (b : ℕ) :
    ∀ (w v i : ℕ), i < w →
      (digitsBE b w v).getD i 0 = v / b ^ (w - 1 - i) % b := by
  intro w
  induction w with
  | zero => intro v i h; omega
  | succ w ih =>
    intro v i h
    cases i with
    | zero => simp [digitsBE]
    | succ i =>
      show (digitsBE b w v).getD i 0 = _
      rw [ih v i (by omega)]
      have he : w + 1 - 1 - (i + 1) = w - 1 - i := by omega
      rw [he]

/-! ## C3 groundwork: the base64 alphabet and the decode loop -/

theorem b64Digit_b64Char : ∀ dg, dg < 64 → b64Digit (b64Char dg) = dg := by
  decide

theorem b64Char_b64Digit : ∀ c ∈ stdEncoding, b64Char (b64Digit c) = c := by
  decide

theorem b64Digit_lt : ∀ c ∈ stdEncoding, b64Digit c < 64 := by
  decide

theorem pow64_eq (a : ℕ) : (64 : ℕ) ^ a = 2 ^ (6 * a) := by
  rw [show (64 : ℕ) = 2 ^ 6 from rfl, ← pow_mul]

theorem pow256_eq (a : ℕ) : (256 : ℕ) ^ a = 2 ^ (8 * a) := by
  rw [show (256 : ℕ) = 2 ^ 8 from rfl, ← pow_mul]

theorem b64DecAcc_eq :
    ∀ (cs : List Char) (acc : ℕ), (∀ c ∈ cs, c ∈ stdEncoding) →
      b64DecAcc acc cs =
        some (cs.foldl (fun a c => a * 64 + b64Digit c) acc) := by
  intro cs
  induction cs with
  | nil => intro acc _; rfl
  | cons c cs ih =>
    intro acc h
    have hc : c ∈ stdEncoding := h c (List.mem_cons_self ..)
    show (if c ∈ stdEncoding then
        b64DecAcc (acc * 64 + stdEncoding.indexOf c) cs
      else if c = '=' then b64DecAcc acc cs else none) = _
    rw [if_pos hc]
    rw [ih (acc * 64 + stdEncoding.indexOf c)
      fun x hx => h x (List.mem_cons_of_mem _ hx)]
    rfl

theorem foldl_chars_valDigits (cs : List Char) (acc : ℕ) :
    cs.foldl (fun a c => a * 64 + b64Digit c) acc =
      valDigits 64 (cs.map b64Digit) + acc * 64 ^ cs.length := by
  rw [show cs.foldl (fun a c => a * 64 + b64Digit c) acc =
      (cs.map b64Digit).foldl (fun a d => a * 64 + d) acc from
    (List.foldl_map b64Digit (fun a d => a * 64 + d) cs acc).symm]
  rw [valDigits_acc 64 (cs.map b64Digit) acc, List.length_map]
  ring

theorem digitsBE_val_inj (b w v1 v2 : ℕ) (hb : 0 < b) (h1 : v1 < b ^ w)
    (h2 : v2 < b ^ w) : digitsBE b w v1 = digitsBE b w v2 ↔ v1 = v2 := by
  constructor
  · intro h
    have hc := congrArg (valDigits b) h
    rwa [valDigits_digitsBE b hb, valDigits_digitsBE b hb,
      Nat.mod_eq_of_lt h1, Nat.mod_eq_of_lt h2] at hc
  · intro h
    rw [h]

/-- Encode-side reduction: the base64 encoding of a 32-byte string starts
with an alphabet-only prefix `pre` of length 1..10 exactly when the leading
base-64 digits of the (2-bit padded) value agree with the prefix value. -/
theorem isPrefixOf_encode_iff (pre : List Char) (m : List ℕ)
    (h1 : 1 ≤ pre.length) (h2 : pre.length ≤ 10)
    (hc : ∀ c ∈ pre, c ∈ stdEncoding)
    (hm : m.length = 32) (hb : ∀ x ∈ m, x < 256) :
    (pre.isPrefixOf (base64Encode m) = true ↔
      valDigits 64 (pre.map b64Digit) =
        valBE m / 2 ^ (256 - 6 * pre.length)) := by
  have hV : valBE m < 2 ^ 256 := by
    have h := valDigits_lt 256 (by norm_num) m hb
    rwa [hm, pow256_eq] at h
  have hN : valBE m * 2 ^ 2 < 64 ^ 43 := by
    have h43 : (64 : ℕ) ^ 43 = 2 ^ 256 * 2 ^ 2 := by norm_num
    rw [h43]
    omega
  have henc : base64EncodeDigits m = digitsBE 64 43 (valBE m * 2 ^ 2) := by
    simp only [base64EncodeDigits, hm]
  have hpad : base64Encode m =
      (digitsBE 64 43 (valBE m * 2 ^ 2)).map b64Char ++
        List.replicate 1 '=' := by
    simp only [base64Encode, henc, hm]
  have hlen43 : ((digitsBE 64 43 (valBE m * 2 ^ 2)).map b64Char).length = 43 := by
    rw [List.length_map, digitsBE_length]
  set w := valBE m * 2 ^ 2 / 64 ^ (43 - pre.length) with hwdef
  have hw64 : w < 64 ^ pre.length := by
    rw [hwdef, Nat.div_lt_iff_lt_mul (by positivity), ← pow_add]
    calc valBE m * 2 ^ 2 < 64 ^ 43 := hN
      _ ≤ 64 ^ (pre.length + (43 - pre.length)) := by
          apply Nat.pow_le_pow_right (by norm_num)
          omega
  have htake : (base64Encode m).take pre.length =
      ((digitsBE 64 pre.length w).map b64Char) := by
    rw [hpad, List.take_append_of_le_length (by rw [hlen43]; omega)]
    rw [← List.map_take, digitsBE_take 64 43 pre.length _ (by omega)]
  constructor
  · intro h
    have hpre : pre = (base64Encode m).take pre.length := by
      have hp := (List.isPrefixOf_iff_prefix).1 h
      exact (List.prefix_iff_eq_take).1 hp
    rw [htake] at hpre
    have hdig : pre.map b64Digit = digitsBE 64 pre.length w := by
      conv_lhs => rw [hpre]
      rw [List.map_map]
      have : ∀ d ∈ digitsBE 64 pre.length w, (b64Digit ∘ b64Char) d = id d := by
        intro d hd
        exact b64Digit_b64Char d (digitsBE_mem_lt 64 (by norm_num) _ w d hd)
      rw [List.map_congr_left this, List.map_id]
    have hvq := congrArg (valDigits 64) hdig
    rw [valDigits_digitsBE 64 (by norm_num), Nat.mod_eq_of_lt hw64] at hvq
    rw [hvq, hwdef]
    have hexp : (64 : ℕ) ^ (43 - pre.length) =
        2 ^ 2 * 2 ^ (256 - 6 * pre.length) := by
      rw [pow64_eq, ← pow_add]
      congr 1
      omega
    rw [hexp, show valBE m * 2 ^ 2 = 2 ^ 2 * valBE m from by ring,
      Nat.mul_div_mul_left _ _ (by norm_num)]
  · intro h
    have hvEq : valDigits 64 (pre.map b64Digit) = w := by
      rw [h, hwdef]
      have hexp : (64 : ℕ) ^ (43 - pre.length) =
          2 ^ 2 * 2 ^ (256 - 6 * pre.length) := by
        rw [pow64_eq, ← pow_add]
        congr 1
        omega
      rw [hexp, show valBE m * 2 ^ 2 = 2 ^ 2 * valBE m from by ring,
        Nat.mul_div_mul_left _ _ (by norm_num)]
    have hdig : digitsBE 64 pre.length w = pre.map b64Digit := by
      rw [← hvEq]
      have hlm : (pre.map b64Digit).length = pre.length := by simp
      have := digitsBE_valDigits 64 (by norm_num) (pre.map b64Digit)
        (by
          intro d hd
          obtain ⟨c, hcm, rfl⟩ := List.mem_map.1 hd
          exact b64Digit_lt c (hc c hcm))
      rwa [hlm] at this
    have hpre : pre = ((digitsBE 64 pre.length w).map b64Char) := by
      rw [hdig, List.map_map]
      have hpt : ∀ c ∈ pre, (b64Char ∘ b64Digit) c = id c := by
        intro c hcm
        exact b64Char_b64Digit c (hc c hcm)
      rw [List.map_congr_left hpt, List.map_id]
    rw [List.isPrefixOf_iff_prefix, List.prefix_iff_eq_take, htake]
    exact hpre

/-- Splitting a byte across a bit boundary: agreement of the leading
`8 - t` bits and of the remaining bit-fields is agreement of the whole. -/
theorem twoPartEq (t : ℕ) (ht1 : 1 ≤ t) (ht2 : t ≤ 7) (w p : ℕ) :
    (w / 256 = p / 2 ^ t ∧ w % 256 / 2 ^ (8 - t) = p % 2 ^ t) ↔
      w / 2 ^ (8 - t) = p := by
  interval_cases t <;> omega

/-- Test-side reduction: the predicate built by `testBase64Prefix` from an
alphabet-only prefix of length 1..10 holds on a 32-byte string exactly when
the leading `6·len` bits of the string agree with the prefix value. -/
theorem testBase64Pre_eval (pre : List Char) (m : List ℕ)
    (h1 : 1 ≤ pre.length) (h2 : pre.length ≤ 10)
    (hc : ∀ c ∈ pre, c ∈ stdEncoding)
    (hm : m.length = 32) (hb : ∀ x ∈ m, x < 256) :
    ∃ f, testBase64Pre pre = some f ∧
      (f m = true ↔
        valDigits 64 (pre.map b64Digit) =
          valBE m / 2 ^ (256 - 6 * pre.length)) := by
  have hn0 : b64DecAcc 0 pre = some (valDigits 64 (pre.map b64Digit)) := by
    rw [b64DecAcc_eq pre 0 hc, foldl_chars_valDigits]
    simp
  set L := pre.length with hLdef
  set P := valDigits 64 (pre.map b64Digit) with hPdef
  have hP : P < 2 ^ (6 * L) := by
    rw [hPdef, ← pow64_eq]
    have h := valDigits_lt 64 (by norm_num) (pre.map b64Digit)
      (by
        intro d hd
        obtain ⟨c, hcm, rfl⟩ := List.mem_map.1 hd
        exact b64Digit_lt c (hc c hcm))
    rwa [List.length_map] at h
  have hV : valBE m < 2 ^ 256 := by
    have h := valDigits_lt 256 (by norm_num) m hb
    rwa [hm, pow256_eq] at h
  have hmdig : digitsBE 256 32 (valBE m) = m := by
    have h := digitsBE_valDigits 256 (by norm_num) m hb
    rwa [hm] at h
  set V := valBE m with hVdef
  by_cases htail : 6 * L % 8 = 0
  · -- bit count a multiple of 8: pure byte-prefix comparison
    have hteq : testBase64Pre pre =
        some (fun b => (toBytesBE ((6 * L + 7) / 8) P).isPrefixOf b) := by
      simp only [testBase64Pre, decodeBase64PreBits, hn0, ← hLdef, ← hPdef]
      rw [if_pos htail, if_neg (by simp [htail])]
    refine ⟨_, hteq, ?_⟩
    set db := 6 * L / 8 with hdbdef
    have hcb : (6 * L + 7) / 8 = db := by omega
    have hdb32 : db ≤ 32 := by omega
    have h8db : 8 * db = 6 * L := by omega
    have hPb : P < 256 ^ db := by
      rw [pow256_eq, h8db]
      exact hP
    have hVd : V / 256 ^ (32 - db) < 256 ^ db := by
      rw [Nat.div_lt_iff_lt_mul (by positivity), ← pow_add]
      calc V < 2 ^ 256 := hV
        _ = 256 ^ 32 := by norm_num
        _ = 256 ^ (db + (32 - db)) := by
            congr 1
            omega
    have hmtake : m.take db = digitsBE 256 db (V / 256 ^ (32 - db)) := by
      conv_lhs => rw [← hmdig]
      rw [digitsBE_take 256 32 db V hdb32]
    have hexp : (256 : ℕ) ^ (32 - db) = 2 ^ (256 - 6 * L) := by
      rw [pow256_eq]
      congr 1
      omega
    constructor
    · intro h
      have hp := (List.prefix_iff_eq_take).1 ((List.isPrefixOf_iff_prefix).1 h)
      rw [hcb] at hp
      have hlenb : (toBytesBE db P).length = db := digitsBE_length 256 db P
      rw [hlenb, hmtake] at hp
      have := (digitsBE_val_inj 256 db P (V / 256 ^ (32 - db))
        (by norm_num) hPb hVd).1 hp
      rw [this, hexp]
    · intro h
      rw [hcb, List.isPrefixOf_iff_prefix, List.prefix_iff_eq_take]
      have hlenb : (toBytesBE db P).length = db := digitsBE_length 256 db P
      rw [hlenb, hmtake]
      exact (digitsBE_val_inj 256 db P (V / 256 ^ (32 - db))
        (by norm_num) hPb hVd).2 (by rw [h, hexp])
  · -- partial final byte
    set tl := 6 * L % 8 with htldef
    have htl1 : 1 ≤ tl := by omega
    have htl7 : tl ≤ 7 := by omega
    set sh := 8 - tl with hshdef
    set db := 6 * L / 8 with hdbdef
    have hdb7 : db ≤ 7 := by omega
    have hcb : (6 * L + 7) / 8 = db + 1 := by omega
    set D := P * 2 ^ sh with hDdef
    have h256split : (2 : ℕ) ^ sh * 2 ^ tl = 256 := by
      rw [← pow_add]
      have hst : sh + tl = 8 := by omega
      rw [hst]
      norm_num
    have hteq : testBase64Pre pre =
        some (fun b =>
          decide (6 * L / 8 < b.length) &&
            (b.take (6 * L / 8) ==
              (toBytesBE ((6 * L + 7) / 8) D).take (6 * L / 8)) &&
            (b.getD (6 * L / 8) 0 >>> (8 - 6 * L % 8) ==
              (toBytesBE ((6 * L + 7) / 8) D).getD (6 * L / 8) 0 >>>
                (8 - 6 * L % 8))) := by
      simp only [testBase64Pre, decodeBase64PreBits, hn0, ← hLdef, ← hPdef]
      rw [if_neg (by rw [← htldef]; exact htail),
        if_pos (show 6 * L % 8 ≠ 0 from by rw [← htldef]; exact htail)]
      try rfl
    refine ⟨_, hteq, ?_⟩
    have hD : D < 256 ^ (db + 1) := by
      rw [hDdef, pow256_eq]
      calc P * 2 ^ sh < 2 ^ (6 * L) * 2 ^ sh :=
            (Nat.mul_lt_mul_right (show 0 < 2 ^ sh by positivity)).mpr hP
        _ = 2 ^ (6 * L + sh) := by rw [pow_add]
        _ ≤ 2 ^ (8 * (db + 1)) := Nat.pow_le_pow_right (by norm_num) (by omega)
    have hdec : toBytesBE ((6 * L + 7) / 8) D = digitsBE 256 (db + 1) D := by
      rw [hcb]
      rfl
    have htb : (digitsBE 256 (db + 1) D).getD db 0 = D % 256 := by
      rw [digitsBE_getD 256 (db + 1) D db (by omega)]
      simp
    have hDm : D % 256 / 2 ^ sh = P % 2 ^ tl := by
      rw [hDdef, Nat.mul_comm P, ← h256split, Nat.mul_mod_mul_left,
        Nat.mul_div_cancel_left _ (by positivity)]
    have hdtake : (digitsBE 256 (db + 1) D).take db =
        digitsBE 256 db (D / 256) := by
      rw [digitsBE_take 256 (db + 1) db D (by omega)]
      try simp
    have hD256 : D / 256 = P / 2 ^ tl := by
      rw [hDdef, Nat.mul_comm P, ← h256split, Nat.mul_div_mul_left _ _
        (by positivity)]
    set w := V / 256 ^ (31 - db) with hwdef
    have hW256 : V / 256 ^ (32 - db) = w / 256 := by
      rw [hwdef, Nat.div_div_eq_div_mul, ← pow_succ]
      congr 2
      omega
    have hmgd : m.getD db 0 = w % 256 := by
      conv_lhs => rw [← hmdig]
      rw [digitsBE_getD 256 32 V db (by omega)]
    have hmtake : m.take db = digitsBE 256 db (V / 256 ^ (32 - db)) := by
      conv_lhs => rw [← hmdig]
      rw [digitsBE_take 256 32 db V (by omega)]
    have hVd : V / 256 ^ (32 - db) < 256 ^ db := by
      rw [Nat.div_lt_iff_lt_mul (by positivity), ← pow_add]
      calc V < 2 ^ 256 := hV
        _ = 256 ^ 32 := by norm_num
        _ = 256 ^ (db + (32 - db)) := by
            congr 1
            omega
    have hPd : P / 2 ^ tl < 256 ^ db := by
      rw [Nat.div_lt_iff_lt_mul (by positivity), pow256_eq, ← pow_add]
      calc P < 2 ^ (6 * L) := hP
        _ ≤ 2 ^ (8 * db + tl) := Nat.pow_le_pow_right (by norm_num) (by omega)
    have hfin : w / 2 ^ sh = V / 2 ^ (256 - 6 * L) := by
      rw [hwdef, Nat.div_div_eq_div_mul, pow256_eq, ← pow_add]
      congr 2
      omega
    simp only [Bool.and_eq_true, decide_eq_true_eq, beq_iff_eq, hdec, htb,
      hdtake, hmtake, hmgd, ← hdbdef, ← htldef, ← hshdef,
      Nat.shiftRight_eq_div_pow]
    rw [hD256, hDm, hW256]
    constructor
    · rintro ⟨⟨-, htke⟩, htle⟩
      have hwp := (digitsBE_val_inj 256 db (w / 256) (P / 2 ^ tl)
        (by norm_num) (hW256 ▸ hVd) hPd).1 htke
      have := (twoPartEq tl htl1 htl7 w P).1 ⟨hwp, htle⟩
      rw [← hshdef] at this
      rw [← this, hfin]
    · intro h
      have hwsh : w / 2 ^ sh = P := by
        rw [hfin, ← h]
      obtain ⟨hq1, hq2⟩ := (twoPartEq tl htl1 htl7 w P).2 (by
        rw [← hshdef]
        exact hwsh)
      refine ⟨⟨by omega, ?_⟩, ?_⟩
      · exact (digitsBE_val_inj 256 db (w / 256) (P / 2 ^ tl)
          (by norm_num) (hW256 ▸ hVd) hPd).2 hq1
      · rw [← hshdef] at hq2
        exact hq2

/-- C3.  For every prefix of 1 to 10 standard-alphabet base64 characters and
every 32-byte input `m` (all entries below 256), `testBase64Prefix` builds a
predicate (no panic), and that predicate accepts `m` exactly when the
standard base64 encoding of `m` starts with the prefix. -/
theorem testBase64Pre_correct (pre : List Char) (m : List ℕ)
    (h1 : 1 ≤ pre.length) (h2 : pre.length ≤ 10)
    (hc : ∀ c ∈ pre, c ∈ stdEncoding)
    (hm : m.length = 32) (hb : ∀ x ∈ m, x < 256) :
    ∃ f, testBase64Pre pre = some f ∧
      f m = pre.isPrefixOf (base64Encode m) := by
  obtain ⟨f, hf, hiff⟩ := testBase64Pre_eval pre m h1 h2 hc hm hb
  refine ⟨f, hf, ?_⟩
  rw [Bool.eq_iff_iff, hiff, isPrefixOf_encode_iff pre m h1 h2 hc hm hb]

/-- Witness for `testBase64Pre_correct`: prefix `"A"` against the all-zero
32-byte input (spec scenario 3). -/
theorem testBase64Pre_correct_witness :
    ∃ f, testBase64Pre [Char.ofNat 65] = some f ∧
      f (List.replicate 32 0) =
        List.isPrefixOf [Char.ofNat 65] (base64Encode (List.replicate 32 0)) :=
  testBase64Pre_correct [Char.ofNat 65] (List.replicate 32 0) (by decide)
    (by decide) (by decide) (by decide) (by decide)

end WVK
